import Mathlib

/-!
# QOnlineTts: request URLs for text-to-speech services

A shallow embedding of `src/qonlinetts.cpp` (QOnlineTranslator) and a
verification of its specification.

Conventions of the embedding

* A `QChar` is one UTF-16 code unit and a `QString` is the list of its code
  units, so sizes and positions are counted in code units and a character
  outside the Basic Multilingual Plane takes two of them (a surrogate pair).
  Where the source tells a null `QString` apart (`isNull`, the default value of
  `QList::value`), the value is an `Option QString` and `none` is the null
  string.
* A `QUrl` is its address together with its query in encoded (wire) form.
* The object state (`m_media`, `m_error`, `m_errorString`) is passed
  explicitly.
* The `while` loops run on fuel: `Run.returned` is the state in which the call
  returns, `Run.running` the state reached when the fuel is used up and the
  loop is still going.
* The host operating system chosen by the preprocessor is a parameter.
-/

namespace QOnlineTts

/-! ## Qt strings and lists -/

/-- One UTF-16 code unit. -/
abbrev QChar := Fin 65536

/-- Code units of a (non-null) `QString`. -/
abbrev QString := List QChar

/-- The `QChar` of a character of the Basic Multilingual Plane. -/
def qc (c : Char) : QChar := Fin.ofNat c.toNat

/-- UTF-16 code units of one character: itself, or a surrogate pair. -/
def utf16EncodeChar (c : Char) : List QChar :=
  if c.toNat < 0x10000 then [Fin.ofNat c.toNat]
  else
    [Fin.ofNat (0xD800 + (c.toNat - 0x10000) / 0x400),
      Fin.ofNat (0xDC00 + (c.toNat - 0x10000) % 0x400)]

/-- The `QString` of a string literal. -/
def qs (s : String) : QString := s.toList.flatMap utf16EncodeChar

/-- Whether a code unit is a high (leading) surrogate. -/
def isHigh (c : QChar) : Bool := decide (0xD800 ≤ c.val) && decide (c.val < 0xDC00)

/-- Whether a code unit is a low (trailing) surrogate. -/
def isLow (c : QChar) : Bool := decide (0xDC00 ≤ c.val) && decide (c.val < 0xE000)

/-- Whether a string is well-formed UTF-16: every high surrogate is followed by
a low one and every low surrogate follows a high one. -/
def wellFormed : QString → Bool
  | [] => true
  | c :: rest =>
    if isHigh c then
      match rest with
      | d :: rest1 => isLow d && wellFormed rest1
      | [] => false
    else if isLow c then false
    else wellFormed rest

/-- Whether position `i` of a string lies inside a surrogate pair: the code unit
before it is a high surrogate and the one at it a low surrogate. -/
def splitsPair (s : QString) (i : Nat) : Bool :=
  match i with
  | 0 => false
  | j + 1 =>
    match s.get? j, s.get? (j + 1) with
    | some h, some l => isHigh h && isLow l
    | _, _ => false

/-- The function `QString::isEmpty`. -/
def isEmpty (s : QString) : Bool := s.isEmpty

/-- The function `QString::left(n)`: the `n` leftmost code units; the entire
string when `n` is negative or at least the size. -/
def left (s : QString) (n : Int) : QString :=
  if n < 0 ∨ (s.length : Int) ≤ n then s else s.take n.toNat

/-- The function `QString::mid(position)` with the default length `-1`: empty
when `position` exceeds the size, the entire string when `position` is negative,
else the string from `position` on. -/
def mid (s : QString) (position : Int) : QString :=
  if (s.length : Int) < position then []
  else if position < 0 then s
  else s.drop position.toNat

/-- The function `QList::value(i)` on a `QStringList`: the item at `i`, or a
default-constructed (null) string when `i` is out of bounds. -/
def value (l : List QString) (i : Int) : Option QString :=
  if 0 ≤ i then l.get? i.toNat else none

/-- The function `QStringList::indexOf(value)`: the position of the first
occurrence, or `-1`. -/
def indexOf (l : List QString) (v : QString) : Int :=
  if l.indexOf v < l.length then (l.indexOf v : Int) else -1

/-! ## UTF-8 and percent-encoding -/

/-- UTF-8 bytes of the code point `v` (one to four bytes). -/
def utf8EncodeUcs4 (v : Nat) : List Nat :=
  if v < 0x80 then [v]
  else if v < 0x800 then [0xC0 + v / 64, 0x80 + v % 64]
  else if v < 0x10000 then [0xE0 + v / 4096, 0x80 + v / 64 % 64, 0x80 + v % 64]
  else [0xF0 + v / 262144, 0x80 + v / 4096 % 64, 0x80 + v / 64 % 64, 0x80 + v % 64]

/-- The code point of a surrogate pair. -/
def pairToUcs4 (high low : QChar) : Nat :=
  0x10000 + (high.val - 0xD800) * 0x400 + (low.val - 0xDC00)

/-- The function `QString::toUtf8` (Qt 5): a surrogate pair gives the four bytes
of its code point, a surrogate without its partner gives a question mark, any
other code unit gives its one to three bytes. -/
def toUtf8 : QString → List Nat
  | [] => []
  | c :: rest =>
    if isHigh c then
      match rest with
      | d :: rest1 =>
        if isLow d then utf8EncodeUcs4 (pairToUcs4 c d) ++ toUtf8 rest1
        else 0x3F :: toUtf8 (d :: rest1)
      | [] => [0x3F]
    else if isLow c then 0x3F :: toUtf8 rest
    else utf8EncodeUcs4 c.val ++ toUtf8 rest

/-- The replacement character U+FFFD. -/
def replacementChar : QChar := Fin.ofNat 0xFFFD

/-- Whether a byte is a UTF-8 continuation byte. -/
def isCont (b : Nat) : Bool := decide (0x80 ≤ b) && decide (b < 0xC0)

/-- UTF-16 code units of a decoded code point that took `least` as its smallest
value: the replacement character for an overlong form, a surrogate or a value
past U+10FFFF. -/
def ucs4ToUtf16 (least v : Nat) : List QChar :=
  if v < least then [replacementChar]
  else if 0xD800 ≤ v ∧ v < 0xE000 then [replacementChar]
  else if v < 0x10000 then [Fin.ofNat v]
  else if v < 0x110000 then
    [Fin.ofNat (0xD800 + (v - 0x10000) / 0x400), Fin.ofNat (0xDC00 + (v - 0x10000) % 0x400)]
  else [replacementChar]

/-- The function `QString::fromUtf8`: a byte that does not start a well-formed
sequence decodes to U+FFFD. -/
def fromUtf8 : List Nat → QString
  | [] => []
  | b0 :: rest =>
    if b0 < 0x80 then Fin.ofNat b0 :: fromUtf8 rest
    else if b0 < 0xC0 then replacementChar :: fromUtf8 rest
    else if b0 < 0xE0 then
      match rest with
      | b1 :: rest1 =>
        if isCont b1 then
          ucs4ToUtf16 0x80 ((b0 - 0xC0) * 64 + (b1 - 0x80)) ++ fromUtf8 rest1
        else replacementChar :: fromUtf8 (b1 :: rest1)
      | [] => [replacementChar]
    else if b0 < 0xF0 then
      match rest with
      | b1 :: b2 :: rest2 =>
        if isCont b1 && isCont b2 then
          ucs4ToUtf16 0x800 ((b0 - 0xE0) * 4096 + (b1 - 0x80) * 64 + (b2 - 0x80))
            ++ fromUtf8 rest2
        else replacementChar :: fromUtf8 (b1 :: b2 :: rest2)
      | rest1 => replacementChar :: fromUtf8 rest1
    else if b0 < 0xF8 then
      match rest with
      | b1 :: b2 :: b3 :: rest3 =>
        if isCont b1 && isCont b2 && isCont b3 then
          ucs4ToUtf16 0x10000
              ((b0 - 0xF0) * 262144 + (b1 - 0x80) * 4096 + (b2 - 0x80) * 64 + (b3 - 0x80))
            ++ fromUtf8 rest3
        else replacementChar :: fromUtf8 (b1 :: b2 :: b3 :: rest3)
      | rest1 => replacementChar :: fromUtf8 rest1
    else replacementChar :: fromUtf8 rest

/-- Bytes that `QUrl::toPercentEncoding` leaves as they are: the unreserved
characters `A-Z a-z 0-9 - . _ ~`. -/
def isUnreserved (b : Nat) : Bool :=
  (decide (0x41 ≤ b) && decide (b ≤ 0x5A)) || (decide (0x61 ≤ b) && decide (b ≤ 0x7A))
    || (decide (0x30 ≤ b) && decide (b ≤ 0x39))
    || b == 0x2D || b == 0x2E || b == 0x5F || b == 0x7E

/-- Upper-case hexadecimal digit of a value below 16. -/
def hexDigit (n : Nat) : QChar :=
  if n < 10 then Fin.ofNat (0x30 + n) else Fin.ofNat (0x37 + n)

/-- The three characters `%XX` of a byte. -/
def percentByte (b : Nat) : List QChar := [qc '%', hexDigit (b / 16), hexDigit (b % 16)]

/-- Percent-encoding of one byte. -/
def encodeByte (b : Nat) : List QChar :=
  if isUnreserved b then [Fin.ofNat b] else percentByte b

/-- The function `QUrl::toPercentEncoding(input)` with no exclusions: the UTF-8
bytes of the input, each byte other than an unreserved character written as
`%XX`.  The result, a byte array of ASCII characters, is given as the string it
becomes when the source appends it to a `QString`. -/
def toPercentEncoding (input : QString) : QString := (toUtf8 input).flatMap encodeByte

/-- Value of a hexadecimal digit. -/
def hexVal (c : QChar) : Option Nat :=
  let v := c.val
  if 0x30 ≤ v ∧ v ≤ 0x39 then some (v - 0x30)
  else if 0x41 ≤ v ∧ v ≤ 0x46 then some (v - 0x37)
  else if 0x61 ≤ v ∧ v ≤ 0x66 then some (v - 0x57)
  else none

/-- Percent-decoding of the UTF-8 form of a string to bytes
(`QByteArray::fromPercentEncoding`): `%XX` gives the byte `XX`, a percent sign
not followed by two hexadecimal digits stands for itself, and everything else
gives its UTF-8 bytes as in `toUtf8`. -/
def percentDecode : QString → List Nat
  | [] => []
  | c :: rest =>
    if c = qc '%' then
      match rest with
      | h :: l :: rest2 =>
        match hexVal h, hexVal l with
        | some a, some b => (16 * a + b) :: percentDecode rest2
        | _, _ => 0x25 :: percentDecode (h :: l :: rest2)
      | rest1 => 0x25 :: percentDecode rest1
    else if isHigh c then
      match rest with
      | d :: rest1 =>
        if isLow d then utf8EncodeUcs4 (pairToUcs4 c d) ++ percentDecode rest1
        else 0x3F :: percentDecode (d :: rest1)
      | [] => [0x3F]
    else if isLow c then 0x3F :: percentDecode rest
    else utf8EncodeUcs4 c.val ++ percentDecode rest

/-- The function `QUrl::fromPercentEncoding`, applied to the UTF-8 form of a
string. -/
def fromPercentEncoding (s : QString) : QString := fromUtf8 (percentDecode s)

/-! ## URLs -/

/-- A `QUrl`: the address it was constructed from and, when one was set, its
query in encoded form (what `QUrl::query(QUrl::FullyEncoded)` returns). -/
structure QUrl where
  address : QString
  query : Option QString
deriving DecidableEq, Repr

/-- The enumeration `QUrl::ParsingMode`, the two modes the source uses. -/
inductive ParsingMode
  | TolerantMode
  | DecodedMode
deriving DecidableEq, Repr

/-- Whether a string has a stray percent sign: one that is not followed by two
hexadecimal digits. -/
def hasStrayPercent : QString → Bool
  | [] => false
  | c :: rest =>
    if c = qc '%' then
      match rest with
      | h :: l :: rest2 =>
        if (hexVal h).isSome && (hexVal l).isSome then hasStrayPercent rest2 else true
      | _ => true
    else hasStrayPercent rest

/-- ASCII characters other than the percent sign that a fully encoded query does
not hold as they are: the control characters, the blank, and the characters
`"`, `#`, `<`, `>`, `\`, `^`, the grave accent, the braces, the bar and DEL. -/
def needsEncoding (c : QChar) : Bool :=
  decide (c.val ≤ 0x20) || c.val == 0x22 || c.val == 0x23 || c.val == 0x3C || c.val == 0x3E
    || c.val == 0x5C || c.val == 0x5E || c.val == 0x60 || c.val == 0x7B || c.val == 0x7C
    || c.val == 0x7D || c.val == 0x7F

/-- The upper-case form of a hexadecimal digit. -/
def upperHex (c : QChar) : QChar :=
  if 0x61 ≤ c.val ∧ c.val ≤ 0x66 then Fin.ofNat (c.val - 0x20) else c

/-- The recoding of a query (`qt_urlRecode`) to its fully encoded form.  With
`literalPercent` every percent sign stands for itself and is written `%25`;
without it `%XX` is kept (in upper case, or as the character itself when that is
unreserved).  Characters outside ASCII are written as the percent-encoded UTF-8
of their code point, and the characters of `needsEncoding` as `%XX`. -/
def recodeChars (literalPercent : Bool) : QString → QString
  | [] => []
  | c :: rest =>
    if c = qc '%' then
      if literalPercent then percentByte 0x25 ++ recodeChars literalPercent rest
      else
        match rest with
        | h :: l :: rest2 =>
          match hexVal h, hexVal l with
          | some a, some b =>
            (if isUnreserved (16 * a + b) then [Fin.ofNat (16 * a + b)]
              else [qc '%', upperHex h, upperHex l]) ++ recodeChars literalPercent rest2
          | _, _ => percentByte 0x25 ++ recodeChars literalPercent (h :: l :: rest2)
        | rest1 => percentByte 0x25 ++ recodeChars literalPercent rest1
    else if isHigh c then
      match rest with
      | d :: rest1 =>
        if isLow d then
          (utf8EncodeUcs4 (pairToUcs4 c d)).flatMap percentByte
            ++ recodeChars literalPercent rest1
        else (utf8EncodeUcs4 c.val).flatMap percentByte
          ++ recodeChars literalPercent (d :: rest1)
      | [] => (utf8EncodeUcs4 c.val).flatMap percentByte
    else if decide (0x80 ≤ c.val) || needsEncoding c then
      (utf8EncodeUcs4 c.val).flatMap percentByte ++ recodeChars literalPercent rest
    else c :: recodeChars literalPercent rest

/-- Characters that the recoding of a query keeps as they are: ASCII other than
the percent sign and the characters of `needsEncoding`. -/
def keptAsIs (c : QChar) : Bool :=
  c != qc '%' && decide (c.val < 0x80) && !needsEncoding c

/-- The query that `QUrl` holds for a string given in `TolerantMode`: when the
string has a stray percent sign, the tolerant parser takes every percent sign of
it literally. -/
def recodeQuery (query : QString) : QString :=
  recodeChars (hasStrayPercent query) query

/-- In `QUrl::DecodedMode` a percent sign stands for itself: `setQuery` first
replaces every `%` by `%25` (`parseDecodedComponent`). -/
def encodeDecoded (s : QString) : QString :=
  s.flatMap fun c => if c = qc '%' then [qc '%', qc '2', qc '5'] else [c]

/-- The function `QUrl::setQuery(query, mode)`, the query read back in its fully
encoded form.  In `DecodedMode` the percent signs are replaced first, then the
string goes the way of `TolerantMode` (the default). -/
def QUrl.setQuery (u : QUrl) (query : QString) (mode : ParsingMode) : QUrl :=
  match mode with
  | .TolerantMode => { u with query := some (recodeQuery query) }
  | .DecodedMode => { u with query := some (recodeQuery (encodeDecoded query)) }

/-- Key and value of a query item: what stands before and after its first `=`. -/
def splitItem (item : QString) : QString × QString :=
  (item.takeWhile (fun c => c != qc '='), (item.dropWhile (fun c => c != qc '=')).drop 1)

/-- Items of a query: split at `&`, each item split at its first `=`. -/
def queryItems (q : QString) : List (QString × QString) :=
  (q.splitOn (qc '&')).map splitItem

/-- The lookup `QUrlQuery(url).queryItemValue(key, QUrl::FullyDecoded)`: the
decoded value of the first item called `key`; `none` when there is no such
item. -/
def queryItemValue (u : QUrl) (key : QString) : Option QString :=
  match u.query with
  | none => none
  | some q =>
    ((queryItems q).find? fun kv => kv.1 == key).map fun kv => fromPercentEncoding kv.2

/-! ## Data model -/

/-- Modelled from the spec: the enumeration `QOnlineTranslator::Engine` is
declared in qonlinetranslator.h, which is not under src/; these are the three
engines the spec lists and the source names. -/
inductive Engine
  | Google
  | Yandex
  | Bing
deriving DecidableEq, Repr

/-- Modelled from the spec: the enumeration `QOnlineTranslator::Language` is
declared in qonlinetranslator.h, which is not under src/.  The four languages
the source names are constructors of their own; `Other n` stands for the
remaining languages of the shared enumeration. -/
inductive Language
  | Auto
  | Russian
  | Tatar
  | English
  | Other (ordinal : Nat)
deriving DecidableEq, Repr

/-- Modelled from the spec: the enumeration `QOnlineTts::Voice` is declared in
qonlinetts.h, which is not under src/; the valid set is none, zahar, ermil,
jane, oksana, alyss, omazh. -/
inductive Voice
  | NoVoice
  | Zahar
  | Ermil
  | Jane
  | Oksana
  | Alyss
  | Omazh
deriving DecidableEq, Repr

/-- Modelled from the spec: the enumeration `QOnlineTts::Emotion` is declared in
qonlinetts.h, which is not under src/; the valid set is none, neutral, good,
evil. -/
inductive Emotion
  | NoEmotion
  | Neutral
  | Good
  | Evil
deriving DecidableEq, Repr

/-- Modelled from the spec: the enumeration `QOnlineTts::TtsError` is declared
in qonlinetts.h, which is not under src/; the four error kinds of the spec and
the implicit "no error" state. -/
inductive TtsError
  | NoError
  | UnsupportedEngine
  | UnsupportedLanguage
  | UnsupportedVoice
  | UnsupportedEmotion
deriving DecidableEq, Repr

/-- Modelled from the spec: the integer value of a voice, its position in the
voice code table (the tables are "indexed by ordinal"), the sentinel before the
table at `-1`. -/
def Voice.toInt : Voice → Int
  | .NoVoice => -1
  | .Zahar => 0
  | .Ermil => 1
  | .Jane => 2
  | .Oksana => 3
  | .Alyss => 4
  | .Omazh => 5

/-- The cast `static_cast<Voice>(i)`: the voice of integer value `i`; `none`
when no enumerator has that value. -/
def Voice.ofInt? (i : Int) : Option Voice :=
  [Voice.NoVoice, .Zahar, .Ermil, .Jane, .Oksana, .Alyss, .Omazh].find? fun v => v.toInt == i

/-- Modelled from the spec: the integer value of an emotion, its position in
the emotion code table, the sentinel before the table at `-1`. -/
def Emotion.toInt : Emotion → Int
  | .NoEmotion => -1
  | .Neutral => 0
  | .Good => 1
  | .Evil => 2

/-- The cast `static_cast<Emotion>(i)`: the emotion of integer value `i`; `none`
when no enumerator has that value. -/
def Emotion.ofInt? (i : Int) : Option Emotion :=
  [Emotion.NoEmotion, .Neutral, .Good, .Evil].find? fun e => e.toInt == i

/-- The key `QMetaEnum::fromType<QOnlineTranslator::Engine>().key(engine)`: the
name of the enumerator. -/
def Engine.key : Engine → QString
  | .Google => (qs "Google")
  | .Yandex => (qs "Yandex")
  | .Bing => (qs "Bing")

/-- The key `QMetaEnum::fromType<Voice>().key(voice)`: the name of the
enumerator. -/
def Voice.key : Voice → QString
  | .NoVoice => (qs "NoVoice")
  | .Zahar => (qs "Zahar")
  | .Ermil => (qs "Ermil")
  | .Jane => (qs "Jane")
  | .Oksana => (qs "Oksana")
  | .Alyss => (qs "Alyss")
  | .Omazh => (qs "Omazh")

/-- The key `QMetaEnum::fromType<Emotion>().key(emotion)`: the name of the
enumerator. -/
def Emotion.key : Emotion → QString
  | .NoEmotion => (qs "NoEmotion")
  | .Neutral => (qs "Neutral")
  | .Good => (qs "Good")
  | .Evil => (qs "Evil")

/-- The collaborators of class `QOnlineTranslator`, whose code is not under
src/: the Text Splitter `getSplitIndex(text, limit)`, the Language/Code
Resolver `languageApiCode(engine, lang)` (`none` is the null string it returns
for a language it does not know) and the names of the languages
(`QMetaEnum::key`). -/
structure Translator where
  getSplitIndex : QString → Int → Int
  languageApiCode : Engine → Language → Option QString
  languageKey : Language → QString

/-- The host operating system the preprocessor sees: `Q_OS_LINUX`, `Q_OS_WIN`,
or neither. -/
inductive HostOS
  | linux
  | windows
  | other
deriving DecidableEq, Repr

/-- The members of a `QOnlineTts` object. -/
structure State where
  m_media : List QUrl
  m_errorString : Option QString
  m_error : TtsError
deriving DecidableEq, Repr

/-- Modelled from the spec: the members of a newly constructed object are
initialised in qonlinetts.h, which is not under src/: no URL, and the implicit
"no error" state. -/
def fresh : State := { m_media := [], m_errorString := none, m_error := .NoError }

/-- Outcome of running a call on fuel. -/
inductive Run (σ : Type)
  | returned (s : σ)
  | running (s : σ)
deriving DecidableEq, Repr

/-- The state of an outcome. -/
def Run.state {σ : Type} : Run σ → σ
  | .returned s => s
  | .running s => s

/-- The constant `googleTtsLimit`. -/
def googleTtsLimit : Int := 200

/-- The constant `yandexTtsLimit`. -/
def yandexTtsLimit : Int := 1400

/-- The table `QOnlineTts::m_emotionCodes`. -/
def m_emotionCodes : List QString := [(qs "neutral"), (qs "good"), (qs "evil")]

/-- The table `QOnlineTts::m_voiceCodes`. -/
def m_voiceCodes : List QString :=
  [(qs "zahar"), (qs "ermil"), (qs "jane"), (qs "oksana"), (qs "alyss"),
    (qs "omazh")]

/-- The function `QOnlineTts::media`. -/
def media (s : State) : List QUrl := s.m_media

/-- The function `QOnlineTts::errorString`. -/
def errorString (s : State) : Option QString := s.m_errorString

/-- The function `QOnlineTts::error`. -/
def error (s : State) : TtsError := s.m_error

/-- The function `QOnlineTts::voiceCode`. -/
def voiceCode (voice : Voice) : Option QString := value m_voiceCodes voice.toInt

/-- The function `QOnlineTts::emotionCode`. -/
def emotionCode (emotion : Emotion) : Option QString := value m_emotionCodes emotion.toInt

/-- The function `QOnlineTts::emotion`. -/
def emotion (emotionCode : QString) : Option Emotion :=
  Emotion.ofInt? (indexOf m_emotionCodes emotionCode)

/-- The function `QOnlineTts::voice`. -/
def voice (voiceCode : QString) : Option Voice :=
  Voice.ofInt? (indexOf m_emotionCodes voiceCode)

/-- The function `QOnlineTts::setError`. -/
def setError (s : State) (error : TtsError) (errorString : QString) : State :=
  { s with m_error := error, m_errorString := some errorString }

/-- The function `QOnlineTts::languageApiCode`: the code (`none` for the null
string) and the state after the call.  The message is the untranslated text
with its two arguments filled in. -/
def languageApiCode (T : Translator) (s : State) (engine : Engine) (lang : Language) :
    Option QString × State :=
  let failed : Option QString × State :=
    (none, setError s .UnsupportedLanguage
      ((qs "Selected language ") ++ T.languageKey lang ++ (qs " is not supported by: ")
        ++ engine.key))
  match engine with
  | .Google =>
    if lang ≠ .Auto then (T.languageApiCode engine lang, s) else failed
  | .Yandex =>
    match lang with
    | .Russian => (some (qs "ru_RU"), s)
    | .Tatar => (some (qs "tr_TR"), s)
    | .English => (some (qs "en_GB"), s)
    | _ => failed
  | _ => failed

/-- The function `QOnlineTts::voiceApiCode`. -/
def voiceApiCode (s : State) (engine : Engine) (voice : Voice) : Option QString × State :=
  if engine = .Yandex ∧ voice ≠ .NoVoice then (voiceCode voice, s)
  else
    (none, setError s .UnsupportedVoice
      ((qs "Selected voice ") ++ voice.key ++ (qs " is not supported by: ") ++ engine.key))

/-- The function `QOnlineTts::emotionApiCode`. -/
def emotionApiCode (s : State) (engine : Engine) (emotion : Emotion) :
    Option QString × State :=
  if engine = .Yandex ∧ emotion ≠ .NoEmotion then (emotionCode emotion, s)
  else
    (none, setError s .UnsupportedEmotion
      ((qs "Selected emotion ") ++ emotion.key ++ (qs " is not supported by: ")
        ++ engine.key))

/-- The URL the Google loop builds for one chunk (lines 53-60): the query is set
in the default mode under `Q_OS_LINUX`, in `DecodedMode` under `Q_OS_WIN`, and
not at all on another host. -/
def googleApiUrl (os : HostOS) (langString chunk : QString) : QUrl :=
  let apiUrl : QUrl :=
    { address := (qs "http://translate.googleapis.com/translate_tts"), query := none }
  match os with
  | .linux =>
    apiUrl.setQuery ((qs "ie=UTF-8&client=gtx&tl=") ++ langString
      ++ (qs "&q=") ++ toPercentEncoding chunk) .TolerantMode
  | .windows =>
    apiUrl.setQuery ((qs "ie=UTF-8&client=gtx&tl=") ++ langString
      ++ (qs "&q=") ++ toPercentEncoding chunk) .DecodedMode
  | .other => apiUrl

/-- The URL the Yandex loop builds for one chunk (lines 87-100). -/
def yandexApiUrl (os : HostOS) (langString voiceString emotionString chunk : QString) : QUrl :=
  let apiUrl : QUrl :=
    { address := (qs "https://tts.voicetech.yandex.net/tts"), query := none }
  match os with
  | .linux =>
    apiUrl.setQuery ((qs "text=") ++ toPercentEncoding chunk
      ++ (qs "&lang=") ++ langString
      ++ (qs "&speaker=") ++ voiceString
      ++ (qs "&emotion=") ++ emotionString
      ++ (qs "&format=mp3")) .TolerantMode
  | .windows =>
    apiUrl.setQuery ((qs "text=") ++ toPercentEncoding chunk
      ++ (qs "&lang=") ++ langString
      ++ (qs "&speaker=") ++ voiceString
      ++ (qs "&emotion=") ++ emotionString
      ++ (qs "&format=mp3")) .DecodedMode
  | .other => apiUrl

/-- The parameter of a URL that carries the chunk: `q` for Google, `text` for
Yandex; Bing has no URL. -/
def chunkParameter : Engine → QString
  | .Google => (qs "q")
  | .Yandex => (qs "text")
  | .Bing => []

/-- The chunk loop of both engines (lines 49-65 and 83-105), with the limit and
the URL of a chunk as parameters: while the unparsed text is not empty, ask for
the split index, append the URL of the left part, go on with the rest.  One
unit of fuel is one iteration. -/
def chunkLoop (T : Translator) (limit : Int) (apiUrl : QString → QUrl) :
    Nat → QString → State → Run State
  | 0, unparsedText, s => if isEmpty unparsedText then .returned s else .running s
  | fuel + 1, unparsedText, s =>
    if isEmpty unparsedText then .returned s
    else
      let splitIndex := T.getSplitIndex unparsedText limit
      chunkLoop T limit apiUrl fuel (mid unparsedText splitIndex)
        { s with m_media := s.m_media ++ [apiUrl (left unparsedText splitIndex)] }

/-- The function `QOnlineTts::generateUrls`. -/
def generateUrls (T : Translator) (os : HostOS) (fuel : Nat) (s : State) (text : QString)
    (engine : Engine) (lang : Language) (voice : Voice) (emotion : Emotion) : Run State :=
  match engine with
  | .Google =>
    match languageApiCode T s engine lang with
    | (none, s1) => .returned s1
    | (some langString, s1) =>
      chunkLoop T googleTtsLimit (googleApiUrl os langString) fuel text s1
  | .Yandex =>
    match languageApiCode T s engine lang with
    | (none, s1) => .returned s1
    | (some langString, s1) =>
      match voiceApiCode s1 engine voice with
      | (none, s2) => .returned s2
      | (some voiceString, s2) =>
        match emotionApiCode s2 engine emotion with
        | (none, s3) => .returned s3
        | (some emotionString, s3) =>
          chunkLoop T yandexTtsLimit (yandexApiUrl os langString voiceString emotionString)
            fuel text s3
  | .Bing =>
    .returned (setError s .UnsupportedEngine
      (Engine.key .Bing ++ (qs " engine does not support TTS")))

/-! ## Concrete collaborators -/

/-- Names of the languages the source names. -/
def sampleLanguageKey : Language → QString
  | .Auto => (qs "Auto")
  | .Russian => (qs "Russian")
  | .Tatar => (qs "Tatar")
  | .English => (qs "English")
  | .Other _ => (qs "Other")

/-- A translator whose splitter always cuts at the budget, or at the end of a
shorter text, and whose resolver knows English (`en`) for Google. -/
def hardCutTranslator : Translator where
  getSplitIndex := fun text limit => min limit text.length
  languageApiCode := fun engine lang =>
    if engine = .Google ∧ lang = .English then some (qs "en") else none
  languageKey := sampleLanguageKey

/-- A translator whose splitter returns a negative index. -/
def negativeSplitTranslator : Translator where
  getSplitIndex := fun _ limit => min limit (-1)
  languageApiCode := fun engine lang =>
    if engine = .Google ∧ lang = .English then some (qs "en") else none
  languageKey := sampleLanguageKey

/-- A translator whose resolver returns a code with an ampersand in it. -/
def ampersandTranslator : Translator where
  getSplitIndex := fun text limit => min limit text.length
  languageApiCode := fun engine lang =>
    if engine = .Google ∧ lang = .English then some (qs "en&q=x") else none
  languageKey := sampleLanguageKey

/-- A translator whose splitter cuts after the first code unit. -/
def unitCutTranslator : Translator where
  getSplitIndex := fun _ _ => 1
  languageApiCode := fun engine lang =>
    if engine = .Google ∧ lang = .English then some (qs "en") else none
  languageKey := sampleLanguageKey

/-- A translator whose splitter cuts after the first code point: after a
surrogate pair at the start of the text, else after the first code unit. -/
def codePointTranslator : Translator where
  getSplitIndex := fun text _ => if splitsPair text 1 then 2 else 1
  languageApiCode := fun engine lang =>
    if engine = .Google ∧ lang = .English then some (qs "en") else none
  languageKey := sampleLanguageKey

/-- A translator whose resolver returns a code with a percent sign that no two
hexadecimal digits follow. -/
def percentTranslator : Translator where
  getSplitIndex := fun text limit => min limit text.length
  languageApiCode := fun engine lang =>
    if engine = .Google ∧ lang = .English then some (qs "%") else none
  languageKey := sampleLanguageKey

theorem ofNat_val (v : Nat) (h : v < 65536) : ((Fin.ofNat v : QChar)).val = v :=
  Nat.mod_eq_of_lt h

theorem ofNat_val_self (c : QChar) : (Fin.ofNat c.val : QChar) = c :=
  Fin.ext (Nat.mod_eq_of_lt c.isLt)

theorem ofNat_eq_of_val (c : QChar) (v : Nat) (h : v = c.val) : (Fin.ofNat v : QChar) = c := by
  rw [h, ofNat_val_self]

theorem wellFormed_cons (c : QChar) (rest : QString) : wellFormed (c :: rest) =
    if isHigh c then
      match rest with
      | d :: rest1 => isLow d && wellFormed rest1
      | [] => false
    else if isLow c then false
    else wellFormed rest := by
  cases rest <;> rfl

theorem toUtf8_cons (c : QChar) (rest : QString) : toUtf8 (c :: rest) =
    if isHigh c then
      match rest with
      | d :: rest1 =>
        if isLow d then utf8EncodeUcs4 (pairToUcs4 c d) ++ toUtf8 rest1
        else 0x3F :: toUtf8 (d :: rest1)
      | [] => [0x3F]
    else if isLow c then 0x3F :: toUtf8 rest
    else utf8EncodeUcs4 c.val ++ toUtf8 rest := by
  cases rest <;> rfl

theorem fromUtf8_cons (b0 : Nat) (rest : List Nat) : fromUtf8 (b0 :: rest) =
    if b0 < 0x80 then Fin.ofNat b0 :: fromUtf8 rest
    else if b0 < 0xC0 then replacementChar :: fromUtf8 rest
    else if b0 < 0xE0 then
      match rest with
      | b1 :: rest1 =>
        if isCont b1 then
          ucs4ToUtf16 0x80 ((b0 - 0xC0) * 64 + (b1 - 0x80)) ++ fromUtf8 rest1
        else replacementChar :: fromUtf8 (b1 :: rest1)
      | [] => [replacementChar]
    else if b0 < 0xF0 then
      match rest with
      | b1 :: b2 :: rest2 =>
        if isCont b1 && isCont b2 then
          ucs4ToUtf16 0x800 ((b0 - 0xE0) * 4096 + (b1 - 0x80) * 64 + (b2 - 0x80))
            ++ fromUtf8 rest2
        else replacementChar :: fromUtf8 (b1 :: b2 :: rest2)
      | rest1 => replacementChar :: fromUtf8 rest1
    else if b0 < 0xF8 then
      match rest with
      | b1 :: b2 :: b3 :: rest3 =>
        if isCont b1 && isCont b2 && isCont b3 then
          ucs4ToUtf16 0x10000
              ((b0 - 0xF0) * 262144 + (b1 - 0x80) * 4096 + (b2 - 0x80) * 64 + (b3 - 0x80))
            ++ fromUtf8 rest3
        else replacementChar :: fromUtf8 (b1 :: b2 :: b3 :: rest3)
      | rest1 => replacementChar :: fromUtf8 rest1
    else replacementChar :: fromUtf8 rest := by
  cases rest with
  | nil => rfl
  | cons b1 r1 => cases r1 with
    | nil => rfl
    | cons b2 r2 => cases r2 with
      | nil => rfl
      | cons b3 r3 => rfl

theorem percentDecode_cons (c : QChar) (rest : QString) : percentDecode (c :: rest) =
    if c = qc '%' then
      match rest with
      | h :: l :: rest2 =>
        match hexVal h, hexVal l with
        | some a, some b => (16 * a + b) :: percentDecode rest2
        | _, _ => 0x25 :: percentDecode (h :: l :: rest2)
      | rest1 => 0x25 :: percentDecode rest1
    else if isHigh c then
      match rest with
      | d :: rest1 =>
        if isLow d then utf8EncodeUcs4 (pairToUcs4 c d) ++ percentDecode rest1
        else 0x3F :: percentDecode (d :: rest1)
      | [] => [0x3F]
    else if isLow c then 0x3F :: percentDecode rest
    else utf8EncodeUcs4 c.val ++ percentDecode rest := by
  cases rest with
  | nil => rfl
  | cons b1 r1 => cases r1 with
    | nil => rfl
    | cons b2 r2 => rfl

theorem hasStrayPercent_cons (c : QChar) (rest : QString) : hasStrayPercent (c :: rest) =
    if c = qc '%' then
      match rest with
      | h :: l :: rest2 =>
        if (hexVal h).isSome && (hexVal l).isSome then hasStrayPercent rest2 else true
      | _ => true
    else hasStrayPercent rest := by
  cases rest with
  | nil => rfl
  | cons b1 r1 => cases r1 with
    | nil => rfl
    | cons b2 r2 => rfl

theorem recodeChars_cons (literalPercent : Bool) (c : QChar) (rest : QString) :
    recodeChars literalPercent (c :: rest) =
    if c = qc '%' then
      if literalPercent then percentByte 0x25 ++ recodeChars literalPercent rest
      else
        match rest with
        | h :: l :: rest2 =>
          match hexVal h, hexVal l with
          | some a, some b =>
            (if isUnreserved (16 * a + b) then [Fin.ofNat (16 * a + b)]
              else [qc '%', upperHex h, upperHex l]) ++ recodeChars literalPercent rest2
          | _, _ => percentByte 0x25 ++ recodeChars literalPercent (h :: l :: rest2)
        | rest1 => percentByte 0x25 ++ recodeChars literalPercent rest1
    else if isHigh c then
      match rest with
      | d :: rest1 =>
        if isLow d then
          (utf8EncodeUcs4 (pairToUcs4 c d)).flatMap percentByte
            ++ recodeChars literalPercent rest1
        else (utf8EncodeUcs4 c.val).flatMap percentByte
          ++ recodeChars literalPercent (d :: rest1)
      | [] => (utf8EncodeUcs4 c.val).flatMap percentByte
    else if decide (0x80 ≤ c.val) || needsEncoding c then
      (utf8EncodeUcs4 c.val).flatMap percentByte ++ recodeChars literalPercent rest
    else c :: recodeChars literalPercent rest := by
  cases rest with
  | nil => rfl
  | cons b1 r1 => cases r1 with
    | nil => rfl
    | cons b2 r2 => rfl

/-! ## UTF-8 can be undone on well-formed strings -/

theorem isHigh_iff (c : QChar) : isHigh c = true ↔ 0xD800 ≤ c.val ∧ c.val < 0xDC00 := by
  simp [isHigh]

theorem isLow_iff (c : QChar) : isLow c = true ↔ 0xDC00 ≤ c.val ∧ c.val < 0xE000 := by
  simp [isLow]

theorem isCont_iff (b : Nat) : isCont b = true ↔ 0x80 ≤ b ∧ b < 0xC0 := by
  simp [isCont]

theorem fromUtf8_bmp_append (c : QChar) (hh : isHigh c = false) (hl : isLow c = false)
    (bs : List Nat) : fromUtf8 (utf8EncodeUcs4 c.val ++ bs) = c :: fromUtf8 bs := by
  have hv := c.isLt
  have hh' : ¬ (0xD800 ≤ c.val ∧ c.val < 0xDC00) := by
    rw [← isHigh_iff, hh]; simp
  have hl' : ¬ (0xDC00 ≤ c.val ∧ c.val < 0xE000) := by
    rw [← isLow_iff, hl]; simp
  unfold utf8EncodeUcs4
  split_ifs with h1 h2
  · rw [List.singleton_append, fromUtf8_cons, if_pos h1, ofNat_val_self]
  · have c1 : isCont (0x80 + c.val % 64) = true := by rw [isCont_iff]; omega
    have a1 : ¬ (0xC0 + c.val / 64 < 0x80) := by omega
    have a2 : ¬ (0xC0 + c.val / 64 < 0xC0) := by omega
    have a3 : (0xC0 + c.val / 64 < 0xE0) := by omega
    have e : (0xC0 + c.val / 64 - 0xC0) * 64 + (0x80 + c.val % 64 - 0x80) = c.val := by omega
    rw [List.cons_append, List.cons_append, List.nil_append, fromUtf8_cons, if_neg a1, if_neg a2,
      if_pos a3]
    simp only [c1, if_true, e, ucs4ToUtf16]
    rw [if_neg (by omega), if_neg (by omega), if_pos (by omega), ofNat_val_self]
    rfl
  · have c1 : isCont (0x80 + c.val / 64 % 64) = true := by rw [isCont_iff]; omega
    have c2 : isCont (0x80 + c.val % 64) = true := by rw [isCont_iff]; omega
    have a1 : ¬ (0xE0 + c.val / 4096 < 0x80) := by omega
    have a2 : ¬ (0xE0 + c.val / 4096 < 0xC0) := by omega
    have a3 : ¬ (0xE0 + c.val / 4096 < 0xE0) := by omega
    have a4 : (0xE0 + c.val / 4096 < 0xF0) := by omega
    have e : (0xE0 + c.val / 4096 - 0xE0) * 4096 + (0x80 + c.val / 64 % 64 - 0x80) * 64
        + (0x80 + c.val % 64 - 0x80) = c.val := by omega
    rw [List.cons_append, List.cons_append, List.cons_append, List.nil_append, fromUtf8_cons,
      if_neg a1, if_neg a2, if_neg a3, if_pos a4]
    simp only [c1, c2, if_true, Bool.and_self, e, ucs4ToUtf16]
    rw [if_neg (by omega), if_neg (by omega), if_pos (by omega), ofNat_val_self]
    rfl

theorem fromUtf8_pair_append (h l : QChar) (hh : isHigh h = true) (hl : isLow l = true)
    (bs : List Nat) :
    fromUtf8 (utf8EncodeUcs4 (pairToUcs4 h l) ++ bs) = h :: l :: fromUtf8 bs := by
  rw [isHigh_iff] at hh
  rw [isLow_iff] at hl
  have hv : 0x10000 ≤ pairToUcs4 h l ∧ pairToUcs4 h l < 0x110000 := by
    unfold pairToUcs4; omega
  generalize hp : pairToUcs4 h l = v at hv
  have eh : 0xD800 + (v - 0x10000) / 0x400 = h.val := by
    rw [← hp]; unfold pairToUcs4; omega
  have el : 0xDC00 + (v - 0x10000) % 0x400 = l.val := by
    rw [← hp]; unfold pairToUcs4; omega
  unfold utf8EncodeUcs4
  rw [if_neg (by omega), if_neg (by omega), if_neg (by omega)]
  have c1 : isCont (0x80 + v / 4096 % 64) = true := by rw [isCont_iff]; omega
  have c2 : isCont (0x80 + v / 64 % 64) = true := by rw [isCont_iff]; omega
  have c3 : isCont (0x80 + v % 64) = true := by rw [isCont_iff]; omega
  have a1 : ¬ (0xF0 + v / 262144 < 0x80) := by omega
  have a2 : ¬ (0xF0 + v / 262144 < 0xC0) := by omega
  have a3 : ¬ (0xF0 + v / 262144 < 0xE0) := by omega
  have a4 : ¬ (0xF0 + v / 262144 < 0xF0) := by omega
  have a5 : (0xF0 + v / 262144 < 0xF8) := by omega
  have e : (0xF0 + v / 262144 - 0xF0) * 262144 + (0x80 + v / 4096 % 64 - 0x80) * 4096
      + (0x80 + v / 64 % 64 - 0x80) * 64 + (0x80 + v % 64 - 0x80) = v := by omega
  rw [List.cons_append, List.cons_append, List.cons_append, List.cons_append, List.nil_append,
    fromUtf8_cons, if_neg a1, if_neg a2, if_neg a3, if_neg a4, if_pos a5]
  simp only [c1, c2, c3, if_true, Bool.and_self, e, ucs4ToUtf16]
  rw [if_neg (by omega), if_neg (by omega), if_neg (by omega), if_pos (by omega), eh, el,
    ofNat_val_self, ofNat_val_self]
  rfl

theorem fromUtf8_toUtf8_aux : ∀ (n : Nat) (s : QString), s.length ≤ n → wellFormed s = true →
    fromUtf8 (toUtf8 s) = s := by
  intro n
  induction n with
  | zero =>
    intro s hn _
    have : s = [] := List.length_eq_zero.mp (Nat.le_zero.mp hn)
    subst this
    rfl
  | succ n ih =>
    intro s hn hwf
    cases s with
    | nil => rfl
    | cons c rest =>
      rw [wellFormed_cons] at hwf
      rw [toUtf8_cons]
      by_cases hh : isHigh c = true
      · rw [if_pos hh] at hwf ⊢
        cases rest with
        | nil => simp at hwf
        | cons d rest1 =>
          simp only [Bool.and_eq_true] at hwf
          simp only [hwf.1, if_true]
          rw [fromUtf8_pair_append c d hh hwf.1,
            ih rest1 (by simp only [List.length_cons] at hn; omega) hwf.2]
      · have hh' : isHigh c = false := by simpa using hh
        rw [if_neg hh] at hwf ⊢
        by_cases hl : isLow c = true
        · rw [if_pos hl] at hwf
          exact absurd hwf (by simp)
        · have hl' : isLow c = false := by simpa using hl
          rw [if_neg hl] at hwf ⊢
          rw [fromUtf8_bmp_append c hh' hl',
            ih rest (by simp only [List.length_cons] at hn; omega) hwf]

/-- UTF-8 of a well-formed string decodes to the string. -/
theorem fromUtf8_toUtf8 (s : QString) (h : wellFormed s = true) : fromUtf8 (toUtf8 s) = s :=
  fromUtf8_toUtf8_aux s.length s (le_refl _) h

theorem utf8EncodeUcs4_lt (v : Nat) (hv : v < 0x110000) : ∀ b ∈ utf8EncodeUcs4 v, b < 256 := by
  unfold utf8EncodeUcs4
  split_ifs <;> simp <;> omega

theorem toUtf8_lt_aux : ∀ (n : Nat) (s : QString), s.length ≤ n → ∀ b ∈ toUtf8 s, b < 256 := by
  intro n
  induction n with
  | zero =>
    intro s hn b hb
    have : s = [] := List.length_eq_zero.mp (Nat.le_zero.mp hn)
    subst this
    simp [toUtf8] at hb
  | succ n ih =>
    intro s hn b hb
    cases s with
    | nil => simp [toUtf8] at hb
    | cons c rest =>
      have hc := c.isLt
      rw [toUtf8_cons] at hb
      simp only [List.length_cons] at hn
      by_cases hh : isHigh c = true
      · rw [if_pos hh] at hb
        cases rest with
        | nil =>
          simp only [List.mem_singleton] at hb
          omega
        | cons d rest1 =>
          simp only [List.length_cons] at hn
          by_cases hl : isLow d = true
          · simp only [hl, if_true, List.mem_append] at hb
            rcases hb with hb | hb
            · refine utf8EncodeUcs4_lt _ ?_ b hb
              rw [isHigh_iff] at hh
              rw [isLow_iff] at hl
              unfold pairToUcs4
              omega
            · exact ih rest1 (by omega) b hb
          · simp only [] at hb
            rw [if_neg hl, List.mem_cons] at hb
            rcases hb with hb | hb
            · omega
            · exact ih (d :: rest1) (by simp only [List.length_cons]; omega) b hb
      · rw [if_neg hh] at hb
        by_cases hl : isLow c = true
        · rw [if_pos hl, List.mem_cons] at hb
          rcases hb with hb | hb
          · omega
          · exact ih rest (by omega) b hb
        · rw [if_neg hl, List.mem_append] at hb
          rcases hb with hb | hb
          · exact utf8EncodeUcs4_lt _ (by omega) b hb
          · exact ih rest (by omega) b hb

theorem toUtf8_lt (s : QString) : ∀ b ∈ toUtf8 s, b < 256 :=
  toUtf8_lt_aux s.length s (le_refl _)

/-! ## Percent-encoding -/

theorem hexVal_hexDigit : ∀ d, d < 16 → hexVal (hexDigit d) = some d := by decide

theorem upperHex_hexDigit : ∀ d, d < 16 → upperHex (hexDigit d) = hexDigit d := by decide

theorem keptAsIs_hexDigit : ∀ d, d < 16 → keptAsIs (hexDigit d) = true := by decide

theorem isUnreserved_lt (b : Nat) (h : isUnreserved b = true) : b < 128 := by
  simp [isUnreserved] at h
  omega

theorem keptAsIs_unreserved : ∀ b, b < 128 → isUnreserved b = true →
    keptAsIs (Fin.ofNat b : QChar) = true := by
  decide

theorem keptAsIs_ofNat_unreserved (b : Nat) (h : isUnreserved b = true) :
    keptAsIs (Fin.ofNat b : QChar) = true :=
  keptAsIs_unreserved b (isUnreserved_lt b h) h

theorem keptAsIs_iff (c : QChar) : keptAsIs c = true ↔
    c ≠ qc '%' ∧ c.val < 0x80 ∧ needsEncoding c = false := by
  simp [keptAsIs, and_assoc]

theorem keptAsIs_not_surrogate (c : QChar) (h : keptAsIs c = true) :
    isHigh c = false ∧ isLow c = false := by
  have h2 := ((keptAsIs_iff c).mp h).2.1
  constructor
  · cases hh : isHigh c with
    | false => rfl
    | true => rw [isHigh_iff] at hh; omega
  · cases hl : isLow c with
    | false => rfl
    | true => rw [isLow_iff] at hl; omega

theorem toUtf8_ascii_cons (c : QChar) (h : c.val < 0x80) (rest : QString) :
    toUtf8 (c :: rest) = c.val :: toUtf8 rest := by
  have hh : isHigh c = false := by
    cases hh : isHigh c with
    | false => rfl
    | true => rw [isHigh_iff] at hh; omega
  have hl : isLow c = false := by
    cases hl : isLow c with
    | false => rfl
    | true => rw [isLow_iff] at hl; omega
  rw [toUtf8_cons, hh, hl]
  simp [utf8EncodeUcs4, h]

theorem percentDecode_kept_cons (c : QChar) (h : keptAsIs c = true) (cs : QString) :
    percentDecode (c :: cs) = c.val :: percentDecode cs := by
  obtain ⟨h1, h2, -⟩ := (keptAsIs_iff c).mp h
  have hh : ¬ isHigh c = true := fun hh => by have := (isHigh_iff c).mp hh; omega
  have hl : ¬ isLow c = true := fun hl => by have := (isLow_iff c).mp hl; omega
  rw [percentDecode_cons, if_neg h1, if_neg hh, if_neg hl]
  simp [utf8EncodeUcs4, h2]

theorem percentDecode_percentByte_append (b : Nat) (hb : b < 256) (cs : QString) :
    percentDecode (percentByte b ++ cs) = b :: percentDecode cs := by
  have h1 := hexVal_hexDigit (b / 16) (by omega)
  have h2 := hexVal_hexDigit (b % 16) (by omega)
  unfold percentByte
  rw [List.cons_append, List.cons_append, List.cons_append, List.nil_append, percentDecode_cons,
    if_pos rfl]
  simp only [h1, h2]
  congr 1
  omega

theorem percentDecode_encodeByte_append (b : Nat) (hb : b < 256) (cs : QString) :
    percentDecode (encodeByte b ++ cs) = b :: percentDecode cs := by
  unfold encodeByte
  split_ifs with h
  · rw [List.singleton_append, percentDecode_kept_cons _ (keptAsIs_ofNat_unreserved b h),
      ofNat_val b (by have := isUnreserved_lt b h; omega)]
  · exact percentDecode_percentByte_append b hb cs

theorem percentDecode_toPercentEncoding_append (s cs : QString) :
    percentDecode (toPercentEncoding s ++ cs) = toUtf8 s ++ percentDecode cs := by
  have gen : ∀ bs : List Nat, (∀ b ∈ bs, b < 256) →
      percentDecode (bs.flatMap encodeByte ++ cs) = bs ++ percentDecode cs := by
    intro bs
    induction bs with
    | nil => intro _; rfl
    | cons b bs ih =>
      intro h
      rw [List.flatMap_cons, List.append_assoc,
        percentDecode_encodeByte_append b (h b (List.mem_cons_self _ _)),
        ih (fun x hx => h x (List.mem_cons_of_mem _ hx))]
      rfl
  exact gen (toUtf8 s) (toUtf8_lt s)

/-- Decoding a percent-encoded string gives the string that its UTF-8 decodes
to. -/
theorem fromPercentEncoding_toPercentEncoding (s : QString) :
    fromPercentEncoding (toPercentEncoding s) = fromUtf8 (toUtf8 s) := by
  have h := percentDecode_toPercentEncoding_append s []
  rw [List.append_nil] at h
  rw [fromPercentEncoding, h]
  show fromUtf8 (toUtf8 s ++ []) = _
  rw [List.append_nil]

/-- Every character of a percent-encoded string is a percent sign or a character
that is kept as it is. -/
theorem toPercentEncoding_chars (s : QString) :
    ∀ c ∈ toPercentEncoding s, c = qc '%' ∨ keptAsIs c = true := by
  intro c hc
  simp only [toPercentEncoding, List.mem_flatMap] at hc
  obtain ⟨b, hb, hc⟩ := hc
  have hb' := toUtf8_lt s b hb
  unfold encodeByte at hc
  split_ifs at hc with h
  · rw [List.mem_singleton] at hc
    subst hc
    exact Or.inr (keptAsIs_ofNat_unreserved b h)
  · simp only [percentByte, List.mem_cons, List.mem_singleton, List.not_mem_nil, or_false] at hc
    rcases hc with rfl | rfl | rfl
    · exact Or.inl rfl
    · exact Or.inr (keptAsIs_hexDigit _ (by omega))
    · exact Or.inr (keptAsIs_hexDigit _ (by omega))

theorem hexDigit_ne : ∀ d, d < 16 → hexDigit d ≠ qc '&' ∧ hexDigit d ≠ qc '=' := by decide

theorem unreserved_ne : ∀ b, b < 128 → isUnreserved b = true →
    (Fin.ofNat b : QChar) ≠ qc '&' ∧ (Fin.ofNat b : QChar) ≠ qc '='
      ∧ (Fin.ofNat b : QChar) ≠ qc '%' := by
  decide

theorem encodeByte_ne (b : Nat) (hb : b < 256) :
    ∀ c ∈ encodeByte b, c ≠ qc '&' ∧ c ≠ qc '=' := by
  intro c hc
  unfold encodeByte at hc
  split_ifs at hc with h
  · rw [List.mem_singleton] at hc
    subst hc
    have := unreserved_ne b (isUnreserved_lt b h) h
    exact ⟨this.1, this.2.1⟩
  · have h1 := hexDigit_ne (b / 16) (by omega)
    have h2 := hexDigit_ne (b % 16) (by omega)
    simp only [percentByte, List.mem_cons, List.mem_singleton, List.not_mem_nil, or_false] at hc
    rcases hc with rfl | rfl | rfl
    · decide
    · exact h1
    · exact h2

theorem toPercentEncoding_ne (s : QString) :
    ∀ c ∈ toPercentEncoding s, c ≠ qc '&' ∧ c ≠ qc '=' := by
  intro c hc
  simp only [toPercentEncoding, List.mem_flatMap] at hc
  obtain ⟨b, hb, hc⟩ := hc
  exact encodeByte_ne b (toUtf8_lt s b hb) c hc

theorem amp_not_mem_toPercentEncoding (s : QString) : qc '&' ∉ toPercentEncoding s :=
  fun h => (toPercentEncoding_ne s _ h).1 rfl

theorem percent_mem_encodeByte (b : Nat) : qc '%' ∈ encodeByte b ↔ isUnreserved b = false := by
  unfold encodeByte
  cases h : isUnreserved b with
  | true =>
    have := (unreserved_ne b (isUnreserved_lt b h) h).2.2
    simp [Ne.symm this]
  | false => simp [percentByte]

/-! ## What `QUrl` does to the queries of the source -/

theorem hasStrayPercent_kept_cons (c : QChar) (h : keptAsIs c = true) (r : QString) :
    hasStrayPercent (c :: r) = hasStrayPercent r := by
  rw [hasStrayPercent_cons, if_neg ((keptAsIs_iff c).mp h).1]

theorem recodeChars_kept_cons (lp : Bool) (c : QChar) (h : keptAsIs c = true) (r : QString) :
    recodeChars lp (c :: r) = c :: recodeChars lp r := by
  obtain ⟨h1, h2, h3⟩ := (keptAsIs_iff c).mp h
  have hh := (keptAsIs_not_surrogate c h).1
  have h4 : ¬ (0x80 ≤ c.val) := by omega
  rw [recodeChars_cons, if_neg h1]
  simp [hh, h3, h4]

theorem hasStrayPercent_kept_append (p : QString) (hp : ∀ c ∈ p, keptAsIs c = true)
    (r : QString) : hasStrayPercent (p ++ r) = hasStrayPercent r := by
  induction p with
  | nil => rfl
  | cons c p ih =>
    rw [List.cons_append, hasStrayPercent_kept_cons c (hp c (List.mem_cons_self _ _)),
      ih (fun x hx => hp x (List.mem_cons_of_mem _ hx))]

theorem recodeChars_kept_append (lp : Bool) (p : QString) (hp : ∀ c ∈ p, keptAsIs c = true)
    (r : QString) : recodeChars lp (p ++ r) = p ++ recodeChars lp r := by
  induction p with
  | nil => rfl
  | cons c p ih =>
    rw [List.cons_append, recodeChars_kept_cons lp c (hp c (List.mem_cons_self _ _)),
      ih (fun x hx => hp x (List.mem_cons_of_mem _ hx))]
    rfl

theorem recodeChars_nil (lp : Bool) : recodeChars lp [] = [] := by
  cases lp <;> rfl

theorem hasStrayPercent_percentByte_append (b : Nat) (hb : b < 256) (r : QString) :
    hasStrayPercent (percentByte b ++ r) = hasStrayPercent r := by
  have h1 := hexVal_hexDigit (b / 16) (by omega)
  have h2 := hexVal_hexDigit (b % 16) (by omega)
  unfold percentByte
  rw [List.cons_append, List.cons_append, List.cons_append, List.nil_append,
    hasStrayPercent_cons, if_pos rfl]
  simp [h1, h2]

theorem recodeChars_percentByte_append (b : Nat) (hb : b < 256) (hu : isUnreserved b = false)
    (r : QString) : recodeChars false (percentByte b ++ r) = percentByte b ++ recodeChars false r := by
  have h1 := hexVal_hexDigit (b / 16) (by omega)
  have h2 := hexVal_hexDigit (b % 16) (by omega)
  have e : 16 * (b / 16) + b % 16 = b := by omega
  unfold percentByte
  rw [List.cons_append, List.cons_append, List.cons_append, List.nil_append,
    recodeChars_cons, if_pos rfl]
  simp only [h1, h2, e, hu, Bool.false_eq_true, if_false,
    upperHex_hexDigit _ (show b / 16 < 16 by omega),
    upperHex_hexDigit _ (show b % 16 < 16 by omega)]

theorem encodeByte_of_unreserved (b : Nat) (h : isUnreserved b = true) :
    encodeByte b = [Fin.ofNat b] := by
  simp [encodeByte, h]

theorem encodeByte_of_not_unreserved (b : Nat) (h : isUnreserved b = false) :
    encodeByte b = percentByte b := by
  simp [encodeByte, h]

theorem hasStrayPercent_toPercentEncoding_append (s r : QString) :
    hasStrayPercent (toPercentEncoding s ++ r) = hasStrayPercent r := by
  have gen : ∀ bs : List Nat, (∀ b ∈ bs, b < 256) →
      hasStrayPercent (bs.flatMap encodeByte ++ r) = hasStrayPercent r := by
    intro bs
    induction bs with
    | nil => intro _; rfl
    | cons b bs ih =>
      intro h
      have hb := h b (List.mem_cons_self _ _)
      rw [List.flatMap_cons, List.append_assoc]
      by_cases hu : isUnreserved b = true
      · rw [encodeByte_of_unreserved b hu, List.singleton_append,
          hasStrayPercent_kept_cons _ (keptAsIs_ofNat_unreserved b hu),
          ih (fun x hx => h x (List.mem_cons_of_mem _ hx))]
      · rw [encodeByte_of_not_unreserved b (by simpa using hu),
          hasStrayPercent_percentByte_append b hb,
          ih (fun x hx => h x (List.mem_cons_of_mem _ hx))]
  exact gen (toUtf8 s) (toUtf8_lt s)

theorem recodeChars_toPercentEncoding_append (s r : QString) :
    recodeChars false (toPercentEncoding s ++ r) = toPercentEncoding s ++ recodeChars false r := by
  have gen : ∀ bs : List Nat, (∀ b ∈ bs, b < 256) →
      recodeChars false (bs.flatMap encodeByte ++ r)
        = bs.flatMap encodeByte ++ recodeChars false r := by
    intro bs
    induction bs with
    | nil => intro _; rfl
    | cons b bs ih =>
      intro h
      have hb := h b (List.mem_cons_self _ _)
      have ih' := ih (fun x hx => h x (List.mem_cons_of_mem _ hx))
      rw [List.flatMap_cons, List.append_assoc, List.append_assoc]
      by_cases hu : isUnreserved b = true
      · rw [encodeByte_of_unreserved b hu, List.singleton_append, List.singleton_append,
          recodeChars_kept_cons _ _ (keptAsIs_ofNat_unreserved b hu)]
        exact congrArg _ ih'
      · rw [encodeByte_of_not_unreserved b (by simpa using hu),
          recodeChars_percentByte_append b hb (by simpa using hu)]
        exact congrArg _ ih'
  exact gen (toUtf8 s) (toUtf8_lt s)

/-! ### The ampersand is a boundary for the recoding -/

theorem keptAsIs_amp : keptAsIs (qc '&') = true := by decide

theorem hexVal_amp : hexVal (qc '&') = none := by decide

theorem hasStrayPercent_amp_aux : ∀ (n : Nat) (a b : QString), a.length ≤ n →
    hasStrayPercent (a ++ qc '&' :: b) = (hasStrayPercent a || hasStrayPercent b) := by
  intro n
  induction n with
  | zero =>
    intro a b hn
    have : a = [] := List.length_eq_zero.mp (Nat.le_zero.mp hn)
    subst this
    rw [List.nil_append, hasStrayPercent_kept_cons _ keptAsIs_amp]
    rfl
  | succ n ih =>
    intro a b hn
    cases a with
    | nil =>
      rw [List.nil_append, hasStrayPercent_kept_cons _ keptAsIs_amp]
      rfl
    | cons c a1 =>
      simp only [List.length_cons] at hn
      rw [List.cons_append, hasStrayPercent_cons, hasStrayPercent_cons]
      by_cases hc : c = qc '%'
      · rw [if_pos hc, if_pos hc]
        cases a1 with
        | nil =>
          cases b with
          | nil => rfl
          | cons b0 b1 => simp [hexVal_amp]
        | cons h a2 =>
          cases a2 with
          | nil => simp [hexVal_amp]
          | cons l a3 =>
            simp only [List.length_cons] at hn
            simp only [List.cons_append]
            split_ifs with hx
            · exact ih a3 b (by omega)
            · rfl
      · rw [if_neg hc, if_neg hc]
        exact ih a1 b (by omega)

theorem hasStrayPercent_amp (a b : QString) :
    hasStrayPercent (a ++ qc '&' :: b) = (hasStrayPercent a || hasStrayPercent b) :=
  hasStrayPercent_amp_aux a.length a b (le_refl _)

theorem isLow_amp : isLow (qc '&') = false := by decide

theorem recodeChars_amp_aux (lp : Bool) : ∀ (n : Nat) (a b : QString), a.length ≤ n →
    recodeChars lp (a ++ qc '&' :: b) = recodeChars lp a ++ qc '&' :: recodeChars lp b := by
  intro n
  induction n with
  | zero =>
    intro a b hn
    have : a = [] := List.length_eq_zero.mp (Nat.le_zero.mp hn)
    subst this
    rw [List.nil_append, recodeChars_kept_cons _ _ keptAsIs_amp, recodeChars_nil]
    rfl
  | succ n ih =>
    intro a b hn
    cases a with
    | nil =>
      rw [List.nil_append, recodeChars_kept_cons _ _ keptAsIs_amp, recodeChars_nil]
      rfl
    | cons c a1 =>
      simp only [List.length_cons] at hn
      have ih1 := ih a1 b (by omega)
      rw [List.cons_append, recodeChars_cons, recodeChars_cons]
      by_cases hc : c = qc '%'
      · rw [if_pos hc, if_pos hc]
        cases lp with
        | true =>
          simp only [if_true]
          rw [ih1, List.append_assoc]
        | false =>
          simp only [Bool.false_eq_true, if_false]
          cases a1 with
          | nil =>
            have hb : recodeChars false (qc '&' :: b) = qc '&' :: recodeChars false b :=
              recodeChars_kept_cons _ _ keptAsIs_amp b
            cases b with
            | nil => simp [recodeChars_nil, hb]
            | cons b0 b1 => simp [hexVal_amp, recodeChars_nil, hb]
          | cons h a2 =>
            cases a2 with
            | nil =>
              simp only [List.cons_append, List.nil_append, hexVal_amp]
              have := ih [h] b (by simp only [List.length_cons, List.length_nil] at hn ⊢; omega)
              simp only [List.cons_append, List.nil_append] at this
              cases hexVal h <;> simp [this]
            | cons l a3 =>
              simp only [List.length_cons] at hn
              simp only [List.cons_append]
              have ih3 := ih a3 b (by omega)
              have ih2 := ih (h :: l :: a3) b (by simp only [List.length_cons]; omega)
              simp only [List.cons_append] at ih2
              cases hexVal h <;> cases hexVal l <;> simp [ih2, ih3]
      · rw [if_neg hc, if_neg hc]
        by_cases hh : isHigh c = true
        · rw [if_pos hh, if_pos hh]
          cases a1 with
          | nil =>
            have hb : recodeChars lp (qc '&' :: b) = qc '&' :: recodeChars lp b :=
              recodeChars_kept_cons _ _ keptAsIs_amp b
            simp [isLow_amp, hb]
          | cons d a2 =>
            simp only [List.length_cons] at hn
            simp only [List.cons_append]
            have ih2 := ih a2 b (by omega)
            have ih1' := ih1
            simp only [List.cons_append] at ih1'
            split_ifs with hd
            · rw [ih2, List.append_assoc]
            · rw [ih1', List.append_assoc]
        · rw [if_neg hh, if_neg hh]
          split_ifs with hx
          · rw [ih1, List.append_assoc]
          · rw [ih1]
            rfl

theorem recodeChars_amp (lp : Bool) (a b : QString) :
    recodeChars lp (a ++ qc '&' :: b) = recodeChars lp a ++ qc '&' :: recodeChars lp b :=
  recodeChars_amp_aux lp a.length a b (le_refl _)

theorem hexDigit_ne_amp : ∀ d, d < 16 → hexDigit d ≠ qc '&' := by decide

theorem percentByte_ne_amp (b : Nat) (hb : b < 256) : qc '&' ∉ percentByte b := by
  have h1 := hexDigit_ne_amp (b / 16) (by omega)
  have h2 := hexDigit_ne_amp (b % 16) (by omega)
  simp only [percentByte, List.mem_cons, List.not_mem_nil, or_false, not_or]
  exact ⟨by decide, Ne.symm h1, Ne.symm h2⟩

theorem flatMap_percentByte_ne_amp (bs : List Nat) (hb : ∀ b ∈ bs, b < 256) :
    qc '&' ∉ bs.flatMap percentByte := by
  simp only [List.mem_flatMap, not_exists, not_and]
  exact fun b hbs => percentByte_ne_amp b (hb b hbs)

theorem upperHex_ne_amp (c : QChar) (h : c ≠ qc '&') : upperHex c ≠ qc '&' := by
  unfold upperHex
  split_ifs with hx
  · intro e
    have := congrArg Fin.val e
    rw [ofNat_val _ (by omega)] at this
    have h26 : (qc '&').val = 0x26 := by decide
    omega
  · exact h

theorem unreserved_ne_amp (b : Nat) (h : isUnreserved b = true) :
    (Fin.ofNat b : QChar) ≠ qc '&' :=
  (unreserved_ne b (isUnreserved_lt b h) h).1

theorem pairToUcs4_lt (c d : QChar) (hc : isHigh c = true) (hd : isLow d = true) :
    pairToUcs4 c d < 0x110000 := by
  rw [isHigh_iff] at hc
  rw [isLow_iff] at hd
  unfold pairToUcs4
  omega

theorem amp_not_mem_recodeChars_aux (lp : Bool) : ∀ (n : Nat) (a : QString), a.length ≤ n →
    qc '&' ∉ a → qc '&' ∉ recodeChars lp a := by
  intro n
  induction n with
  | zero =>
    intro a hn _
    have : a = [] := List.length_eq_zero.mp (Nat.le_zero.mp hn)
    subst this
    rw [recodeChars_nil]
    exact List.not_mem_nil _
  | succ n ih =>
    intro a hn ha
    cases a with
    | nil => rw [recodeChars_nil]; exact List.not_mem_nil _
    | cons c a1 =>
      simp only [List.length_cons] at hn
      have hc1 : qc '&' ≠ c := fun e => ha (e ▸ List.mem_cons_self _ _)
      have ha1 : qc '&' ∉ a1 := fun e => ha (List.mem_cons_of_mem _ e)
      have ih1 := ih a1 (by omega) ha1
      have hcv := c.isLt
      have hpb := flatMap_percentByte_ne_amp (utf8EncodeUcs4 c.val)
        (utf8EncodeUcs4_lt _ (by omega))
      have h25 := percentByte_ne_amp 0x25 (by omega)
      rw [recodeChars_cons]
      by_cases hc : c = qc '%'
      · rw [if_pos hc]
        cases lp with
        | true =>
          simp only [if_true, List.mem_append, not_or]
          exact ⟨h25, ih1⟩
        | false =>
          simp only [Bool.false_eq_true, if_false]
          cases a1 with
          | nil =>
            simp only [List.mem_append, not_or]
            exact ⟨h25, ih1⟩
          | cons h a2 =>
            cases a2 with
            | nil =>
              simp only [List.mem_append, not_or]
              exact ⟨h25, ih1⟩
            | cons l a3 =>
              simp only [List.length_cons] at hn
              have hh : h ≠ qc '&' := fun e => ha1 (e ▸ List.mem_cons_self _ _)
              have hl : l ≠ qc '&' := fun e =>
                ha1 (e ▸ List.mem_cons_of_mem _ (List.mem_cons_self _ _))
              have ha3 : qc '&' ∉ a3 := fun e =>
                ha1 (List.mem_cons_of_mem _ (List.mem_cons_of_mem _ e))
              have ih3 := ih a3 (by omega) ha3
              show qc '&' ∉ (match hexVal h, hexVal l with
                | some a, some b =>
                  (if isUnreserved (16 * a + b) then [Fin.ofNat (16 * a + b)]
                    else [qc '%', upperHex h, upperHex l]) ++ recodeChars false a3
                | _, _ => percentByte 0x25 ++ recodeChars false (h :: l :: a3))
              rcases hexVal h with _ | x
              · simp only [List.mem_append, not_or]
                exact ⟨h25, ih1⟩
              · rcases hexVal l with _ | y
                · simp only [List.mem_append, not_or]
                  exact ⟨h25, ih1⟩
                · simp only [List.mem_append, not_or]
                  refine ⟨?_, ih3⟩
                  split_ifs with hu
                  · rw [List.mem_singleton]
                    exact Ne.symm (unreserved_ne_amp _ hu)
                  · simp only [List.mem_cons, List.not_mem_nil, or_false, not_or]
                    exact ⟨by decide, Ne.symm (upperHex_ne_amp h hh),
                      Ne.symm (upperHex_ne_amp l hl)⟩
      · rw [if_neg hc]
        by_cases hh : isHigh c = true
        · rw [if_pos hh]
          cases a1 with
          | nil => exact hpb
          | cons d a2 =>
            simp only [List.length_cons] at hn
            have ha2 : qc '&' ∉ a2 := fun e => ha1 (List.mem_cons_of_mem _ e)
            have ih2 := ih a2 (by omega) ha2
            simp only []
            split_ifs with hd
            · simp only [List.mem_append, not_or]
              exact ⟨flatMap_percentByte_ne_amp _
                (utf8EncodeUcs4_lt _ (pairToUcs4_lt c d hh hd)), ih2⟩
            · simp only [List.mem_append, not_or]
              exact ⟨hpb, ih1⟩
        · rw [if_neg hh]
          split_ifs with hx
          · simp only [List.mem_append, not_or]
            exact ⟨hpb, ih1⟩
          · simp only [List.mem_cons, not_or]
            exact ⟨hc1, ih1⟩

theorem amp_not_mem_recodeChars (lp : Bool) (a : QString) (h : qc '&' ∉ a) :
    qc '&' ∉ recodeChars lp a :=
  amp_not_mem_recodeChars_aux lp a.length a (le_refl _) h

/-! ### Replacing the percent signs (`DecodedMode`) -/

theorem encodeDecoded_cons (c : QChar) (s : QString) :
    encodeDecoded (c :: s)
      = (if c = qc '%' then [qc '%', qc '2', qc '5'] else [c]) ++ encodeDecoded s := by
  simp [encodeDecoded]

theorem encodeDecoded_append (a b : QString) :
    encodeDecoded (a ++ b) = encodeDecoded a ++ encodeDecoded b := by
  simp [encodeDecoded]

theorem encodeDecoded_of_not_mem (s : QString) (h : qc '%' ∉ s) : encodeDecoded s = s := by
  induction s with
  | nil => rfl
  | cons c s ih =>
    have h1 : c ≠ qc '%' := fun e => h (e ▸ List.mem_cons_self _ _)
    rw [encodeDecoded_cons, if_neg h1, ih (fun e => h (List.mem_cons_of_mem _ e))]
    rfl

theorem percent_not_mem_of_kept (s : QString) (h : ∀ c ∈ s, keptAsIs c = true) :
    qc '%' ∉ s := fun hm => ((keptAsIs_iff _).mp (h _ hm)).1 rfl

theorem encodeDecoded_of_kept (s : QString) (h : ∀ c ∈ s, keptAsIs c = true) :
    encodeDecoded s = s :=
  encodeDecoded_of_not_mem s (percent_not_mem_of_kept s h)

/-- A string of percent signs and kept characters, its percent signs replaced,
is held by `QUrl` as it is. -/
theorem recodeQuery_encodeDecoded (s : QString)
    (h : ∀ c ∈ s, c = qc '%' ∨ keptAsIs c = true) :
    recodeQuery (encodeDecoded s) = encodeDecoded s := by
  have key : hasStrayPercent (encodeDecoded s) = false
      ∧ recodeChars false (encodeDecoded s) = encodeDecoded s := by
    induction s with
    | nil => exact ⟨rfl, rfl⟩
    | cons c s ih =>
      obtain ⟨i1, i2⟩ := ih (fun x hx => h x (List.mem_cons_of_mem _ hx))
      rw [encodeDecoded_cons]
      rcases h c (List.mem_cons_self _ _) with hc | hc
      · subst hc
        have e : [qc '%', qc '2', qc '5'] = percentByte 0x25 := by decide
        rw [if_pos rfl, e]
        exact ⟨by rw [hasStrayPercent_percentByte_append _ (by omega), i1],
          by rw [recodeChars_percentByte_append _ (by omega) (by decide), i2]⟩
      · rw [if_neg ((keptAsIs_iff c).mp hc).1, List.singleton_append]
        exact ⟨by rw [hasStrayPercent_kept_cons c hc, i1],
          by rw [recodeChars_kept_cons _ c hc, i2]⟩
  rw [recodeQuery, key.1, key.2]

theorem splitOn_amp_append (xs as : QString) (h : qc '&' ∉ xs) :
    (xs ++ qc '&' :: as).splitOn (qc '&') = xs :: as.splitOn (qc '&') := by
  refine List.splitOnP_first (fun c => c == qc '&') xs ?_ (qc '&') (by decide) as
  intro x hx hp
  rw [eq_of_beq hp] at hx
  exact h hx

theorem splitOn_amp_single (xs : QString) (h : qc '&' ∉ xs) :
    xs.splitOn (qc '&') = [xs] := by
  refine List.splitOnP_eq_single (fun c => c == qc '&') xs ?_
  intro x hx hp
  rw [eq_of_beq hp] at hx
  exact h hx

theorem queryItems_append_amp (item rest : QString) (h : qc '&' ∉ item) :
    queryItems (item ++ qc '&' :: rest) = splitItem item :: queryItems rest := by
  simp only [queryItems, splitOn_amp_append item rest h, List.map_cons]

theorem queryItems_single (item : QString) (h : qc '&' ∉ item) :
    queryItems item = [splitItem item] := by
  simp only [queryItems, splitOn_amp_single item h, List.map_cons, List.map_nil]

theorem splitItem_key_value (k v : QString) (hk : qc '=' ∉ k) :
    splitItem (k ++ qc '=' :: v) = (k, v) := by
  have h1 : ∀ x ∈ k, (x != qc '=') = true := by
    intro x hx
    simp only [bne_iff_ne, ne_eq]
    rintro rfl
    exact hk hx
  unfold splitItem
  rw [List.takeWhile_append_of_pos h1, List.dropWhile_append_of_pos h1]
  simp

/-- The value of `q` in a query of the shape the Google branch builds. -/
theorem queryItemValue_google (address code value : QString) (hc : qc '&' ∉ code)
    (hv : qc '&' ∉ value) :
    queryItemValue { address := address, query := some (qs "ie=UTF-8&client=gtx&tl=" ++ code
        ++ qs "&q=" ++ value) } (qs "q")
      = some (fromPercentEncoding value) := by
  have e1 : qs "ie=UTF-8&client=gtx&tl="
      = qs "ie=UTF-8" ++ qc '&' :: (qs "client=gtx" ++ qc '&' :: (qs "tl" ++ [qc '='])) := by
    decide
  have e2 : qs "&q=" = qc '&' :: (qs "q" ++ [qc '=']) := by decide
  have e : qs "ie=UTF-8&client=gtx&tl=" ++ code ++ qs "&q=" ++ value
      = qs "ie=UTF-8" ++ qc '&' :: (qs "client=gtx" ++ qc '&' ::
        ((qs "tl" ++ qc '=' :: code) ++ qc '&' :: (qs "q" ++ qc '=' :: value))) := by
    rw [e1, e2]
    simp
  have a1 : qc '&' ∉ qs "ie=UTF-8" := by decide
  have a2 : qc '&' ∉ qs "client=gtx" := by decide
  have a3 : qc '&' ∉ qs "tl" ++ qc '=' :: code := by
    simp only [List.mem_append, List.mem_cons, not_or]
    exact ⟨by decide, by decide, hc⟩
  have a4 : qc '&' ∉ qs "q" ++ qc '=' :: value := by
    simp only [List.mem_append, List.mem_cons, not_or]
    exact ⟨by decide, by decide, hv⟩
  have s1 : splitItem (qs "ie=UTF-8") = (qs "ie", qs "UTF-8") := by decide
  have s2 : splitItem (qs "client=gtx") = (qs "client", qs "gtx") := by decide
  have s3 := splitItem_key_value (qs "tl") code (by decide)
  have s4 := splitItem_key_value (qs "q") value (by decide)
  have k1 : (qs "ie" == qs "q") = false := by decide
  have k2 : (qs "client" == qs "q") = false := by decide
  have k3 : (qs "tl" == qs "q") = false := by decide
  simp only [queryItemValue]
  rw [e, queryItems_append_amp _ _ a1, queryItems_append_amp _ _ a2,
    queryItems_append_amp _ _ a3, queryItems_single _ a4, s1, s2, s3, s4]
  simp [List.find?, k1, k2, k3]

/-- The value of `text` in a query of the shape the Yandex branch builds. -/
theorem queryItemValue_yandex (address value rest : QString) (hv : qc '&' ∉ value) :
    queryItemValue { address := address, query := some (qs "text=" ++ value ++ qc '&' :: rest) }
        (qs "text")
      = some (fromPercentEncoding value) := by
  have e1 : qs "text=" = qs "text" ++ [qc '='] := by decide
  have e : qs "text=" ++ value ++ qc '&' :: rest
      = (qs "text" ++ qc '=' :: value) ++ qc '&' :: rest := by
    rw [e1]
    simp
  have a1 : qc '&' ∉ qs "text" ++ qc '=' :: value := by
    simp only [List.mem_append, List.mem_cons, not_or]
    exact ⟨by decide, by decide, hv⟩
  have s1 := splitItem_key_value (qs "text") value (by decide)
  simp only [queryItemValue]
  rw [e, queryItems_append_amp _ _ a1, s1]
  simp [List.find?]

/-! ### The URLs of a chunk -/

theorem kept_of_all (s : QString) (h : s.all keptAsIs = true) : ∀ c ∈ s, keptAsIs c = true := by
  simpa [List.all_eq_true] using h

theorem hasStrayPercent_of_kept (s : QString) (h : ∀ c ∈ s, keptAsIs c = true) :
    hasStrayPercent s = false := by
  have := hasStrayPercent_kept_append s h []
  rw [List.append_nil] at this
  exact this

theorem hasStrayPercent_toPercentEncoding (s : QString) :
    hasStrayPercent (toPercentEncoding s) = false := by
  have := hasStrayPercent_toPercentEncoding_append s []
  rw [List.append_nil] at this
  exact this

theorem recodeChars_toPercentEncoding (s : QString) :
    recodeChars false (toPercentEncoding s) = toPercentEncoding s := by
  have := recodeChars_toPercentEncoding_append s []
  rw [List.append_nil, recodeChars_nil, List.append_nil] at this
  exact this

/-- The query of the Linux URL of the Google branch, for a code without a stray
percent sign: the percent-encoded chunk stands in it as it is. -/
theorem googleApiUrl_linux (code chunk : QString) (hs : hasStrayPercent code = false) :
    googleApiUrl .linux code chunk
      = { address := qs "http://translate.googleapis.com/translate_tts",
          query := some (qs "ie=UTF-8&client=gtx&tl=" ++ recodeChars false code ++ qs "&q="
            ++ toPercentEncoding chunk) } := by
  have k1 : ∀ c ∈ qs "ie=UTF-8&client=gtx&tl=", keptAsIs c = true := kept_of_all _ (by decide)
  have k2 : ∀ c ∈ qs "q=", keptAsIs c = true := kept_of_all _ (by decide)
  have e2 : qs "&q=" = qc '&' :: qs "q=" := by decide
  have e : qs "ie=UTF-8&client=gtx&tl=" ++ code ++ qs "&q=" ++ toPercentEncoding chunk
      = qs "ie=UTF-8&client=gtx&tl=" ++ (code ++ qc '&' :: (qs "q=" ++ toPercentEncoding chunk)) := by
    rw [e2]
    simp
  have hstray : hasStrayPercent (qs "ie=UTF-8&client=gtx&tl=" ++ code ++ qs "&q="
      ++ toPercentEncoding chunk) = false := by
    rw [e, hasStrayPercent_kept_append _ k1, hasStrayPercent_amp, hs,
      hasStrayPercent_kept_append _ k2, hasStrayPercent_toPercentEncoding]
    rfl
  have hrec : recodeChars false (qs "ie=UTF-8&client=gtx&tl=" ++ code ++ qs "&q="
      ++ toPercentEncoding chunk)
      = qs "ie=UTF-8&client=gtx&tl=" ++ recodeChars false code ++ qs "&q="
        ++ toPercentEncoding chunk := by
    rw [e, recodeChars_kept_append _ _ k1, recodeChars_amp, recodeChars_kept_append _ _ k2,
      recodeChars_toPercentEncoding, e2]
    simp
  simp only [googleApiUrl, QUrl.setQuery, recodeQuery, hstray, hrec]

/-- The query of the Linux URL of the Yandex branch, for codes of kept
characters. -/
theorem yandexApiUrl_linux (l v e chunk : QString) (hl : ∀ c ∈ l, keptAsIs c = true)
    (hv : ∀ c ∈ v, keptAsIs c = true) (he : ∀ c ∈ e, keptAsIs c = true) :
    yandexApiUrl .linux l v e chunk
      = { address := qs "https://tts.voicetech.yandex.net/tts",
          query := some (qs "text=" ++ toPercentEncoding chunk ++ qs "&lang=" ++ l
            ++ qs "&speaker=" ++ v ++ qs "&emotion=" ++ e ++ qs "&format=mp3") } := by
  have k1 : ∀ c ∈ qs "text=", keptAsIs c = true := kept_of_all _ (by decide)
  have k2 : ∀ c ∈ qs "&lang=" ++ l ++ qs "&speaker=" ++ v ++ qs "&emotion=" ++ e
      ++ qs "&format=mp3", keptAsIs c = true := by
    have a1 : ∀ c ∈ qs "&lang=", keptAsIs c = true := kept_of_all _ (by decide)
    have a2 : ∀ c ∈ qs "&speaker=", keptAsIs c = true := kept_of_all _ (by decide)
    have a3 : ∀ c ∈ qs "&emotion=", keptAsIs c = true := kept_of_all _ (by decide)
    have a4 : ∀ c ∈ qs "&format=mp3", keptAsIs c = true := kept_of_all _ (by decide)
    intro c hc
    simp only [List.mem_append] at hc
    rcases hc with (((((hc | hc) | hc) | hc) | hc) | hc) | hc
    · exact a1 c hc
    · exact hl c hc
    · exact a2 c hc
    · exact hv c hc
    · exact a3 c hc
    · exact he c hc
    · exact a4 c hc
  have e' : qs "text=" ++ toPercentEncoding chunk ++ qs "&lang=" ++ l
        ++ qs "&speaker=" ++ v ++ qs "&emotion=" ++ e ++ qs "&format=mp3"
      = qs "text=" ++ (toPercentEncoding chunk ++ (qs "&lang=" ++ l ++ qs "&speaker=" ++ v
        ++ qs "&emotion=" ++ e ++ qs "&format=mp3")) := by
    simp
  have hstray : hasStrayPercent (qs "text=" ++ toPercentEncoding chunk ++ qs "&lang=" ++ l
      ++ qs "&speaker=" ++ v ++ qs "&emotion=" ++ e ++ qs "&format=mp3") = false := by
    rw [e', hasStrayPercent_kept_append _ k1, hasStrayPercent_toPercentEncoding_append,
      hasStrayPercent_of_kept _ k2]
  have hrec : recodeChars false (qs "text=" ++ toPercentEncoding chunk ++ qs "&lang=" ++ l
      ++ qs "&speaker=" ++ v ++ qs "&emotion=" ++ e ++ qs "&format=mp3")
      = qs "text=" ++ toPercentEncoding chunk ++ qs "&lang=" ++ l
        ++ qs "&speaker=" ++ v ++ qs "&emotion=" ++ e ++ qs "&format=mp3" := by
    have hk := recodeChars_kept_append false _ k2 []
    rw [List.append_nil, recodeChars_nil, List.append_nil] at hk
    rw [e', recodeChars_kept_append _ _ k1, recodeChars_toPercentEncoding_append, hk]
  simp only [yandexApiUrl, QUrl.setQuery, recodeQuery, hstray, hrec]

/-- The query of the Windows URL of the Yandex branch, for codes of kept
characters. -/
theorem yandexApiUrl_windows (l v e chunk : QString) (hl : ∀ c ∈ l, keptAsIs c = true)
    (hv : ∀ c ∈ v, keptAsIs c = true) (he : ∀ c ∈ e, keptAsIs c = true) :
    yandexApiUrl .windows l v e chunk
      = { address := qs "https://tts.voicetech.yandex.net/tts",
          query := some (qs "text=" ++ encodeDecoded (toPercentEncoding chunk) ++ qs "&lang="
            ++ l ++ qs "&speaker=" ++ v ++ qs "&emotion=" ++ e ++ qs "&format=mp3") } := by
  have a0 : ∀ c ∈ qs "text=", keptAsIs c = true := kept_of_all _ (by decide)
  have a1 : ∀ c ∈ qs "&lang=", keptAsIs c = true := kept_of_all _ (by decide)
  have a2 : ∀ c ∈ qs "&speaker=", keptAsIs c = true := kept_of_all _ (by decide)
  have a3 : ∀ c ∈ qs "&emotion=", keptAsIs c = true := kept_of_all _ (by decide)
  have a4 : ∀ c ∈ qs "&format=mp3", keptAsIs c = true := kept_of_all _ (by decide)
  have hall : ∀ c ∈ qs "text=" ++ toPercentEncoding chunk ++ qs "&lang=" ++ l
      ++ qs "&speaker=" ++ v ++ qs "&emotion=" ++ e ++ qs "&format=mp3",
      c = qc '%' ∨ keptAsIs c = true := by
    intro c hc
    simp only [List.mem_append] at hc
    rcases hc with (((((((hc | hc) | hc) | hc) | hc) | hc) | hc) | hc) | hc
    · exact Or.inr (a0 c hc)
    · exact toPercentEncoding_chars chunk c hc
    · exact Or.inr (a1 c hc)
    · exact Or.inr (hl c hc)
    · exact Or.inr (a2 c hc)
    · exact Or.inr (hv c hc)
    · exact Or.inr (a3 c hc)
    · exact Or.inr (he c hc)
    · exact Or.inr (a4 c hc)
  simp only [yandexApiUrl, QUrl.setQuery]
  rw [recodeQuery_encodeDecoded _ hall]
  simp only [encodeDecoded_append, encodeDecoded_of_kept _ a0, encodeDecoded_of_kept _ a1,
    encodeDecoded_of_kept _ a2, encodeDecoded_of_kept _ a3, encodeDecoded_of_kept _ a4,
    encodeDecoded_of_kept _ hl, encodeDecoded_of_kept _ hv, encodeDecoded_of_kept _ he]

/-- On Linux the decoded `q` of the URL of a chunk is what the UTF-8 of the chunk
decodes to. -/
theorem queryItemValue_google_linux (code chunk : QString) (h : qc '&' ∉ code)
    (hs : hasStrayPercent code = false) :
    queryItemValue (googleApiUrl .linux code chunk) (qs "q")
      = some (fromUtf8 (toUtf8 chunk)) := by
  rw [googleApiUrl_linux code chunk hs,
    queryItemValue_google _ _ _ (amp_not_mem_recodeChars false code h)
      (amp_not_mem_toPercentEncoding chunk),
    fromPercentEncoding_toPercentEncoding]

theorem queryItemValue_yandex_linux (l v e chunk : QString) (hl : ∀ c ∈ l, keptAsIs c = true)
    (hv : ∀ c ∈ v, keptAsIs c = true) (he : ∀ c ∈ e, keptAsIs c = true) :
    queryItemValue (yandexApiUrl .linux l v e chunk) (qs "text")
      = some (fromUtf8 (toUtf8 chunk)) := by
  have e1 : qs "&lang=" = qc '&' :: qs "lang=" := by decide
  have e' : qs "text=" ++ toPercentEncoding chunk ++ qs "&lang=" ++ l
        ++ qs "&speaker=" ++ v ++ qs "&emotion=" ++ e ++ qs "&format=mp3"
      = qs "text=" ++ toPercentEncoding chunk ++ qc '&' :: (qs "lang=" ++ l
        ++ qs "&speaker=" ++ v ++ qs "&emotion=" ++ e ++ qs "&format=mp3") := by
    rw [e1]
    simp
  rw [yandexApiUrl_linux l v e chunk hl hv he, e',
    queryItemValue_yandex _ _ _ (amp_not_mem_toPercentEncoding chunk),
    fromPercentEncoding_toPercentEncoding]

/-! ## The chunk loop -/

theorem left_append_mid (s : QString) (i : Int) (h : 0 ≤ i) : left s i ++ mid s i = s := by
  unfold left mid
  by_cases h1 : (s.length : Int) ≤ i
  · rw [if_pos (Or.inr h1)]
    by_cases h2 : (s.length : Int) < i
    · rw [if_pos h2, List.append_nil]
    · rw [if_neg h2, if_neg (by omega)]
      have : i.toNat = s.length := by omega
      rw [this, List.drop_length, List.append_nil]
  · rw [if_neg (by omega), if_neg (by omega), if_neg (by omega), List.take_append_drop]

theorem length_left_le (s : QString) (i m : Int) (h0 : 0 ≤ i) (h : i ≤ m) :
    ((left s i).length : Int) ≤ m := by
  unfold left
  split_ifs with h1
  · omega
  · rw [List.length_take]
    omega

theorem length_mid_lt (s : QString) (i : Int) (h : 1 ≤ i) (hs : s ≠ []) :
    (mid s i).length < s.length := by
  have hpos : 0 < s.length := List.length_pos.mpr hs
  unfold mid
  split_ifs with h1 h2
  · simpa using hpos
  · omega
  · rw [List.length_drop]
    omega

theorem left_ne_nil (s : QString) (i : Int) (h : 1 ≤ i) (hs : s ≠ []) : left s i ≠ [] := by
  have h1 := left_append_mid s i (by omega)
  have h2 := length_mid_lt s i h hs
  intro h3
  rw [h3, List.nil_append] at h1
  rw [h1] at h2
  exact lt_irrefl _ h2

theorem isEmpty_eq_true (s : QString) : isEmpty s = true ↔ s = [] := by
  simp [isEmpty]

theorem chunkLoop_zero (T : Translator) (limit : Int) (apiUrl : QString → QUrl)
    (text : QString) (s : State) :
    chunkLoop T limit apiUrl 0 text s = if isEmpty text then .returned s else .running s := rfl

theorem chunkLoop_succ (T : Translator) (limit : Int) (apiUrl : QString → QUrl) (fuel : Nat)
    (text : QString) (s : State) :
    chunkLoop T limit apiUrl (fuel + 1) text s =
      if isEmpty text then .returned s
      else chunkLoop T limit apiUrl fuel (mid text (T.getSplitIndex text limit))
        { s with m_media := s.m_media ++ [apiUrl (left text (T.getSplitIndex text limit))] } := rfl

theorem chunkLoop_nil (T : Translator) (limit : Int) (apiUrl : QString → QUrl) (fuel : Nat)
    (s : State) : chunkLoop T limit apiUrl fuel [] s = .returned s := by
  cases fuel <;> rfl

/-- With a splitter that returns at least 1 on non-empty text, fuel equal to the
length of the text is enough for the loop to finish; the chunks it puts into
URLs are non-empty and make up the text. -/
theorem chunkLoop_returns (T : Translator) (limit : Int) (apiUrl : QString → QUrl)
    (hsplit : ∀ t : QString, t ≠ [] → 1 ≤ T.getSplitIndex t limit) :
    ∀ (fuel : Nat) (text : QString) (s : State), text.length ≤ fuel →
      ∃ chunks : List QString,
        chunkLoop T limit apiUrl fuel text s
            = .returned { s with m_media := s.m_media ++ chunks.map apiUrl }
          ∧ chunks.flatten = text ∧ (∀ c ∈ chunks, c ≠ []) ∧ chunks.length ≤ text.length
          ∧ ((∀ t : QString, T.getSplitIndex t limit ≤ limit) →
              ∀ c ∈ chunks, (c.length : Int) ≤ limit) := by
  intro fuel
  induction fuel with
  | zero =>
    intro text s h
    have ht : text = [] := List.length_eq_zero.mp (Nat.le_zero.mp h)
    subst ht
    exact ⟨[], by simp [chunkLoop_nil], rfl, by simp, by simp, by simp⟩
  | succ n ih =>
    intro text s h
    by_cases ht : text = []
    · subst ht
      exact ⟨[], by simp [chunkLoop_nil], rfl, by simp, by simp, by simp⟩
    · have hi := hsplit text ht
      have hlt := length_mid_lt text _ hi ht
      obtain ⟨chunks, h1, h2, h3, h4, h5⟩ := ih (mid text (T.getSplitIndex text limit))
        { s with m_media := s.m_media ++ [apiUrl (left text (T.getSplitIndex text limit))] }
        (by omega)
      refine ⟨left text (T.getSplitIndex text limit) :: chunks, ?_, ?_, ?_, ?_, ?_⟩
      · rw [chunkLoop_succ, if_neg (by simpa [isEmpty_eq_true] using ht), h1]
        simp
      · rw [List.flatten_cons, h2, left_append_mid _ _ (by omega)]
      · intro c hc
        rcases List.mem_cons.mp hc with rfl | hc
        · exact left_ne_nil text _ hi ht
        · exact h3 c hc
      · rw [List.length_cons]
        omega
      · intro hle c hc
        rcases List.mem_cons.mp hc with rfl | hc
        · exact length_left_le text _ limit (by omega) (hle text)
        · exact h5 hle c hc

theorem chunkLoop_chunks_le (T : Translator) (limit : Int) (apiUrl : QString → QUrl)
    (hsplit : ∀ t : QString, 0 ≤ T.getSplitIndex t limit ∧ T.getSplitIndex t limit ≤ limit) :
    ∀ (fuel : Nat) (text : QString) (s : State),
      ∃ chunks : List QString,
        (chunkLoop T limit apiUrl fuel text s).state.m_media = s.m_media ++ chunks.map apiUrl
          ∧ ∀ c ∈ chunks, (c.length : Int) ≤ limit := by
  intro fuel
  induction fuel with
  | zero =>
    intro text s
    refine ⟨[], ?_, by simp⟩
    rw [chunkLoop_zero]
    split_ifs <;> simp [Run.state]
  | succ n ih =>
    intro text s
    rw [chunkLoop_succ]
    split_ifs with h
    · exact ⟨[], by simp [Run.state], by simp⟩
    · obtain ⟨chunks, h1, h2⟩ := ih (mid text (T.getSplitIndex text limit))
        { s with m_media := s.m_media ++ [apiUrl (left text (T.getSplitIndex text limit))] }
      refine ⟨left text (T.getSplitIndex text limit) :: chunks, ?_, ?_⟩
      · rw [h1]
        simp
      · intro c hc
        rcases List.mem_cons.mp hc with rfl | hc
        · exact length_left_le text _ limit (hsplit text).1 (hsplit text).2
        · exact h2 c hc

/-- Whatever the splitter and the fuel, the loop only appends URLs of chunks to
the sequence and touches nothing else of the state. -/
theorem chunkLoop_chunks_state (T : Translator) (limit : Int) (apiUrl : QString → QUrl) :
    ∀ (fuel : Nat) (text : QString) (s : State),
      ∃ chunks : List QString,
        (chunkLoop T limit apiUrl fuel text s).state
            = { s with m_media := s.m_media ++ chunks.map apiUrl }
          ∧ chunks.length ≤ fuel := by
  intro fuel
  induction fuel with
  | zero =>
    intro text s
    refine ⟨[], ?_, by simp⟩
    rw [chunkLoop_zero]
    split_ifs <;> simp [Run.state]
  | succ n ih =>
    intro text s
    rw [chunkLoop_succ]
    split_ifs with h
    · exact ⟨[], by simp [Run.state], by simp⟩
    · obtain ⟨chunks, h1, h2⟩ := ih (mid text (T.getSplitIndex text limit))
        { s with m_media := s.m_media ++ [apiUrl (left text (T.getSplitIndex text limit))] }
      refine ⟨left text (T.getSplitIndex text limit) :: chunks, ?_, ?_⟩
      · rw [h1]
        simp
      · rw [List.length_cons]
        omega

theorem generateUrls_google (T : Translator) (os : HostOS) (fuel : Nat) (s : State)
    (text : QString) (lang : Language) (voice : Voice) (emotion : Emotion) (code : QString)
    (hl : lang ≠ .Auto) (hc : T.languageApiCode .Google lang = some code) :
    generateUrls T os fuel s text .Google lang voice emotion
      = chunkLoop T googleTtsLimit (googleApiUrl os code) fuel text s := by
  simp [generateUrls, languageApiCode, hl, hc]

theorem languageApiCode_google (T : Translator) (s : State) (lang : Language) (code : QString)
    (hl : lang ≠ .Auto) (hc : T.languageApiCode .Google lang = some code) :
    languageApiCode T s .Google lang = (some code, s) := by
  simp [languageApiCode, hl, hc]

theorem languageApiCode_yandex (T : Translator) (s : State) (lang : Language)
    (hl : lang = .Russian ∨ lang = .Tatar ∨ lang = .English) :
    ∃ code, languageApiCode T s .Yandex lang = (some code, s) := by
  rcases hl with rfl | rfl | rfl <;> exact ⟨_, rfl⟩

theorem voiceApiCode_yandex (s : State) (voice : Voice) (hv : voice ≠ .NoVoice) :
    ∃ code, voiceApiCode s .Yandex voice = (some code, s) ∧ voiceCode voice = some code := by
  cases voice <;> first | exact absurd rfl hv | exact ⟨_, rfl, rfl⟩

theorem emotionApiCode_yandex (s : State) (emotion : Emotion) (he : emotion ≠ .NoEmotion) :
    ∃ code, emotionApiCode s .Yandex emotion = (some code, s) ∧ emotionCode emotion = some code := by
  cases emotion <;> first | exact absurd rfl he | exact ⟨_, rfl, rfl⟩

theorem generateUrls_yandex (T : Translator) (os : HostOS) (fuel : Nat) (s : State)
    (text : QString) (lang : Language) (voice : Voice) (emotion : Emotion)
    (hl : lang = .Russian ∨ lang = .Tatar ∨ lang = .English) (hv : voice ≠ .NoVoice)
    (he : emotion ≠ .NoEmotion) :
    ∃ l v e, languageApiCode T s .Yandex lang = (some l, s) ∧ voiceCode voice = some v
      ∧ emotionCode emotion = some e
      ∧ generateUrls T os fuel s text .Yandex lang voice emotion
        = chunkLoop T yandexTtsLimit (yandexApiUrl os l v e) fuel text s := by
  obtain ⟨l, h1⟩ := languageApiCode_yandex T s lang hl
  obtain ⟨v, h2, h2b⟩ := voiceApiCode_yandex s voice hv
  obtain ⟨e, h3, h3b⟩ := emotionApiCode_yandex s emotion he
  refine ⟨l, v, e, h1, h2b, h3b, ?_⟩
  simp only [generateUrls, h1, h2, h3]

/-! ## Error state and platform branches -/

/-- The argument tuples for which generateUrls sets an error: Bing; Google with
auto-detect; Yandex unless the language is Russian, Tatar or English and the
voice and the emotion are not none.  The error kind and message depend on the
arguments only. -/
theorem generateUrls_error_set (T : Translator) (os : HostOS) (engine : Engine)
    (lang : Language) (voice : Voice) (emotion : Emotion)
    (hfail : engine = .Bing ∨ (engine = .Google ∧ lang = .Auto)
      ∨ (engine = .Yandex ∧ ¬ ((lang = .Russian ∨ lang = .Tatar ∨ lang = .English)
        ∧ voice ≠ .NoVoice ∧ emotion ≠ .NoEmotion))) :
    ∃ (kind : TtsError) (msg : QString), kind ≠ .NoError ∧
      ∀ (fuel : Nat) (s : State) (text : QString),
        generateUrls T os fuel s text engine lang voice emotion
          = .returned (setError s kind msg) := by
  rcases hfail with rfl | ⟨rfl, rfl⟩ | ⟨rfl, h⟩
  · exact ⟨.UnsupportedEngine, _, by decide, fun _ _ _ => rfl⟩
  · exact ⟨.UnsupportedLanguage, _, by decide, fun _ _ _ => rfl⟩
  · by_cases hl : lang = .Russian ∨ lang = .Tatar ∨ lang = .English
    · by_cases hv : voice = .NoVoice
      · subst hv
        rcases hl with rfl | rfl | rfl <;>
          exact ⟨.UnsupportedVoice, _, by decide, fun _ _ _ => rfl⟩
      · have he : emotion = .NoEmotion := by
          by_contra he
          exact h ⟨hl, hv, he⟩
        subst he
        rcases hl with rfl | rfl | rfl <;> cases voice <;>
          first
          | exact absurd rfl hv
          | exact ⟨.UnsupportedEmotion, _, by decide, fun _ _ _ => rfl⟩
    · cases lang with
      | Auto => exact ⟨.UnsupportedLanguage, _, by decide, fun _ _ _ => rfl⟩
      | Russian => exact absurd (Or.inl rfl) hl
      | Tatar => exact absurd (Or.inr (Or.inl rfl)) hl
      | English => exact absurd (Or.inr (Or.inr rfl)) hl
      | Other n => exact ⟨.UnsupportedLanguage, _, by decide, fun _ _ _ => rfl⟩

/-- For every other argument tuple generateUrls only appends URLs: the error
kind and message stay as they were. -/
theorem generateUrls_error_kept (T : Translator) (os : HostOS) (fuel : Nat) (s : State)
    (text : QString) (engine : Engine) (lang : Language) (voice : Voice) (emotion : Emotion)
    (hok : ¬ (engine = .Bing ∨ (engine = .Google ∧ lang = .Auto)
      ∨ (engine = .Yandex ∧ ¬ ((lang = .Russian ∨ lang = .Tatar ∨ lang = .English)
        ∧ voice ≠ .NoVoice ∧ emotion ≠ .NoEmotion)))) :
    ∃ urls : List QUrl,
      (generateUrls T os fuel s text engine lang voice emotion).state
        = { s with m_media := s.m_media ++ urls } := by
  cases engine with
  | Bing => exact absurd (Or.inl rfl) hok
  | Google =>
    have hl : lang ≠ .Auto := fun h => hok (Or.inr (Or.inl ⟨rfl, h⟩))
    cases hc : T.languageApiCode .Google lang with
    | none => exact ⟨[], by simp [generateUrls, languageApiCode, Run.state, hl, hc]⟩
    | some code =>
      rw [generateUrls_google T os fuel s text lang voice emotion code hl hc]
      obtain ⟨chunks, h1, -⟩ := chunkLoop_chunks_state T googleTtsLimit (googleApiUrl os code)
        fuel text s
      exact ⟨_, h1⟩
  | Yandex =>
    have h : (lang = .Russian ∨ lang = .Tatar ∨ lang = .English)
        ∧ voice ≠ .NoVoice ∧ emotion ≠ .NoEmotion := by
      by_contra h
      exact hok (Or.inr (Or.inr ⟨rfl, h⟩))
    obtain ⟨l, v, e, -, -, -, hg⟩ :=
      generateUrls_yandex T os fuel s text lang voice emotion h.1 h.2.1 h.2.2
    rw [hg]
    obtain ⟨chunks, h1, -⟩ := chunkLoop_chunks_state T yandexTtsLimit (yandexApiUrl os l v e)
      fuel text s
    exact ⟨_, h1⟩

/-- The chunks the loop cuts do not depend on how a URL is built from a chunk,
nor on the state. -/
theorem chunkLoop_chunks_uniform (T : Translator) (limit : Int) :
    ∀ (fuel : Nat) (text : QString),
      ∃ chunks : List QString, ∀ (apiUrl : QString → QUrl) (s : State),
        (chunkLoop T limit apiUrl fuel text s).state
          = { s with m_media := s.m_media ++ chunks.map apiUrl } := by
  intro fuel
  induction fuel with
  | zero =>
    intro text
    refine ⟨[], fun apiUrl s => ?_⟩
    rw [chunkLoop_zero]
    split_ifs <;> simp [Run.state]
  | succ n ih =>
    intro text
    by_cases h : isEmpty text = true
    · refine ⟨[], fun apiUrl s => ?_⟩
      rw [chunkLoop_succ, if_pos h]
      simp [Run.state]
    · obtain ⟨chunks, hc⟩ := ih (mid text (T.getSplitIndex text limit))
      refine ⟨left text (T.getSplitIndex text limit) :: chunks, fun apiUrl s => ?_⟩
      rw [chunkLoop_succ, if_neg h, hc]
      simp

theorem yandex_codes (T : Translator) (s : State) (lang : Language) (voice : Voice)
    (emotion : Emotion) (hl : lang = .Russian ∨ lang = .Tatar ∨ lang = .English)
    (hv : voice ≠ .NoVoice) (he : emotion ≠ .NoEmotion) :
    ∃ l v e : QString, languageApiCode T s .Yandex lang = (some l, s)
      ∧ voiceApiCode s .Yandex voice = (some v, s)
      ∧ emotionApiCode s .Yandex emotion = (some e, s)
      ∧ (∀ c ∈ l, keptAsIs c = true) ∧ (∀ c ∈ v, keptAsIs c = true)
      ∧ (∀ c ∈ e, keptAsIs c = true)
      ∧ ∀ (os : HostOS) (fuel : Nat) (text : QString),
        generateUrls T os fuel s text .Yandex lang voice emotion
          = chunkLoop T yandexTtsLimit (yandexApiUrl os l v e) fuel text s := by
  rcases hl with rfl | rfl | rfl <;> cases voice <;> cases emotion <;>
    first
    | exact absurd rfl hv
    | exact absurd rfl he
    | exact ⟨_, _, _, rfl, rfl, rfl, kept_of_all _ (by decide), kept_of_all _ (by decide),
        kept_of_all _ (by decide), fun _ _ _ => rfl⟩

theorem hardCutTranslator_split (t : QString) (m : Int) (ht : t ≠ []) (hm : 1 ≤ m) :
    1 ≤ hardCutTranslator.getSplitIndex t m
      ∧ hardCutTranslator.getSplitIndex t m ≤ min m t.length := by
  have hpos : 0 < t.length := List.length_pos.mpr ht
  simp only [hardCutTranslator]
  omega

/-! ## Cutting well-formed text -/

theorem wellFormed_take_drop_aux : ∀ (n : Nat) (s : QString) (i : Nat), s.length ≤ n →
    wellFormed s = true → splitsPair s i = false →
    wellFormed (s.take i) = true ∧ wellFormed (s.drop i) = true := by
  intro n
  induction n with
  | zero =>
    intro s i hn hwf _
    have : s = [] := List.length_eq_zero.mp (Nat.le_zero.mp hn)
    subst this
    simp [wellFormed]
  | succ n ih =>
    intro s i hn hwf hsp
    cases i with
    | zero => exact ⟨rfl, hwf⟩
    | succ j =>
      cases s with
      | nil => simp [wellFormed]
      | cons c rest =>
        simp only [List.length_cons] at hn
        rw [wellFormed_cons] at hwf
        by_cases hh : isHigh c = true
        · rw [if_pos hh] at hwf
          cases rest with
          | nil => simp at hwf
          | cons d rest1 =>
            simp only [Bool.and_eq_true] at hwf
            simp only [List.length_cons] at hn
            cases j with
            | zero =>
              simp [splitsPair, hh, hwf.1] at hsp
            | succ k =>
              have hsp' : splitsPair rest1 k = false := by
                cases k with
                | zero => rfl
                | succ m => simpa [splitsPair] using hsp
              obtain ⟨h1, h2⟩ := ih rest1 k (by omega) hwf.2 hsp'
              refine ⟨?_, ?_⟩
              · rw [List.take_succ_cons, List.take_succ_cons, wellFormed_cons, if_pos hh]
                simp [hwf.1, h1]
              · simpa using h2
        · rw [if_neg hh] at hwf
          by_cases hl : isLow c = true
          · rw [if_pos hl] at hwf
            exact absurd hwf (by simp)
          · rw [if_neg hl] at hwf
            have hsp' : splitsPair rest j = false := by
              cases j with
              | zero => rfl
              | succ m => simpa [splitsPair] using hsp
            obtain ⟨h1, h2⟩ := ih rest j (by omega) hwf hsp'
            refine ⟨?_, ?_⟩
            · rw [List.take_succ_cons, wellFormed_cons, if_neg hh, if_neg hl]
              exact h1
            · simpa using h2

/-- A well-formed string cut at a position that is not inside a surrogate pair
gives two well-formed strings. -/
theorem wellFormed_take_drop (s : QString) (i : Nat) (hwf : wellFormed s = true)
    (hsp : splitsPair s i = false) :
    wellFormed (s.take i) = true ∧ wellFormed (s.drop i) = true :=
  wellFormed_take_drop_aux s.length s i (le_refl _) hwf hsp

theorem left_eq_take (s : QString) (i : Int) (h0 : 0 ≤ i) : left s i = s.take i.toNat := by
  unfold left
  split_ifs with h
  · rw [List.take_of_length_le (by omega)]
  · rfl

theorem mid_eq_drop (s : QString) (i : Int) (h0 : 0 ≤ i) : mid s i = s.drop i.toNat := by
  unfold mid
  split_ifs with h1 h2
  · rw [List.drop_of_length_le (by omega)]
  · omega
  · rfl

/-- The loop with an invariant of the unparsed text that every cut keeps for both
parts: the chunks have it too. -/
theorem chunkLoop_returns_inv (T : Translator) (limit : Int) (apiUrl : QString → QUrl)
    (P : QString → Prop)
    (hsplit : ∀ t : QString, t ≠ [] → 1 ≤ T.getSplitIndex t limit)
    (hP : ∀ t : QString, t ≠ [] → P t →
      P (left t (T.getSplitIndex t limit)) ∧ P (mid t (T.getSplitIndex t limit))) :
    ∀ (fuel : Nat) (text : QString) (s : State), text.length ≤ fuel → P text →
      ∃ chunks : List QString,
        chunkLoop T limit apiUrl fuel text s
            = .returned { s with m_media := s.m_media ++ chunks.map apiUrl }
          ∧ chunks.flatten = text ∧ ∀ c ∈ chunks, P c := by
  intro fuel
  induction fuel with
  | zero =>
    intro text s h _
    have ht : text = [] := List.length_eq_zero.mp (Nat.le_zero.mp h)
    subst ht
    exact ⟨[], by simp [chunkLoop_nil], rfl, by simp⟩
  | succ n ih =>
    intro text s h hPt
    by_cases ht : text = []
    · subst ht
      exact ⟨[], by simp [chunkLoop_nil], rfl, by simp⟩
    · have hi := hsplit text ht
      have hlt := length_mid_lt text _ hi ht
      obtain ⟨hP1, hP2⟩ := hP text ht hPt
      obtain ⟨chunks, h1, h2, h3⟩ := ih (mid text (T.getSplitIndex text limit))
        { s with m_media := s.m_media ++ [apiUrl (left text (T.getSplitIndex text limit))] }
        (by omega) hP2
      refine ⟨left text (T.getSplitIndex text limit) :: chunks, ?_, ?_, ?_⟩
      · rw [chunkLoop_succ, if_neg (by simpa [isEmpty_eq_true] using ht), h1]
        simp
      · rw [List.flatten_cons, h2, left_append_mid _ _ (by omega)]
      · intro c hc
        rcases List.mem_cons.mp hc with rfl | hc
        · exact hP1
        · exact h3 c hc

/-! ## ASCII text -/

theorem toUtf8_ascii_append (p : QString) (hp : ∀ c ∈ p, c.val < 0x80) (s : QString) :
    toUtf8 (p ++ s) = p.map (fun c => c.val) ++ toUtf8 s := by
  induction p with
  | nil => rfl
  | cons c p ih =>
    rw [List.cons_append, toUtf8_ascii_cons c (hp c (List.mem_cons_self _ _)),
      ih (fun x hx => hp x (List.mem_cons_of_mem _ hx))]
    rfl

/-- When the UTF-8 of a string is all ASCII, it has one byte for each code
unit. -/
theorem length_toUtf8_of_ascii : ∀ (n : Nat) (s : QString), s.length ≤ n →
    (∀ b ∈ toUtf8 s, b < 0x80) → (toUtf8 s).length = s.length := by
  intro n
  induction n with
  | zero =>
    intro s hn _
    have : s = [] := List.length_eq_zero.mp (Nat.le_zero.mp hn)
    subst this
    rfl
  | succ n ih =>
    intro s hn hb
    cases s with
    | nil => rfl
    | cons c rest =>
      simp only [List.length_cons] at hn
      have hc := c.isLt
      rw [toUtf8_cons] at hb ⊢
      by_cases hh : isHigh c = true
      · rw [if_pos hh] at hb ⊢
        cases rest with
        | nil => rfl
        | cons d rest1 =>
          simp only [] at hb ⊢
          by_cases hl : isLow d = true
          · exfalso
            rw [if_pos hl] at hb
            have hv := pairToUcs4_lt c d hh hl
            have h0 : 0x10000 ≤ pairToUcs4 c d := by unfold pairToUcs4; omega
            have := hb (0xF0 + pairToUcs4 c d / 262144) (by
              unfold utf8EncodeUcs4
              rw [if_neg (by omega), if_neg (by omega), if_neg (by omega)]
              simp)
            omega
          · rw [if_neg hl] at hb ⊢
            rw [List.length_cons, ih (d :: rest1) (by omega)
              (fun b hbm => hb b (List.mem_cons_of_mem _ hbm))]
            rfl
      · rw [if_neg hh] at hb ⊢
        by_cases hl : isLow c = true
        · rw [if_pos hl] at hb ⊢
          rw [List.length_cons, ih rest (by omega)
            (fun b hbm => hb b (List.mem_cons_of_mem _ hbm)), List.length_cons]
        · rw [if_neg hl] at hb ⊢
          have hlt : c.val < 0x80 := by
            by_contra hge
            have := hb (utf8EncodeUcs4 c.val).head! (by
              unfold utf8EncodeUcs4
              split_ifs <;> simp)
            unfold utf8EncodeUcs4 at this
            split_ifs at this <;> simp at this <;> omega
          have e : utf8EncodeUcs4 c.val = [c.val] := by simp [utf8EncodeUcs4, hlt]
          rw [e] at hb ⊢
          rw [List.singleton_append, List.length_cons, ih rest (by omega)
            (fun b hbm => hb b (List.mem_cons_of_mem _ hbm)), List.length_cons]

/-! ## Further facts on queries -/

theorem hasStrayPercent_of_not_mem (s : QString) (h : qc '%' ∉ s) :
    hasStrayPercent s = false := by
  induction s with
  | nil => rfl
  | cons c s ih =>
    rw [hasStrayPercent_cons, if_neg (fun hc : c = qc '%' => h (hc ▸ List.mem_cons_self _ _))]
    exact ih (fun hx => h (List.mem_cons_of_mem _ hx))

/-- A text of unreserved characters is its own percent-encoding. -/
theorem toPercentEncoding_of_unreserved (s : QString)
    (h : ∀ c ∈ s, isUnreserved c.val = true) : toPercentEncoding s = s := by
  induction s with
  | nil => rfl
  | cons c s ih =>
    have hc := h c (List.mem_cons_self _ _)
    have e : toPercentEncoding (c :: s) = encodeByte c.val ++ toPercentEncoding s := by
      unfold toPercentEncoding
      rw [toUtf8_ascii_cons c (isUnreserved_lt _ hc), List.flatMap_cons]
    rw [e, encodeByte_of_unreserved _ hc, ih (fun x hx => h x (List.mem_cons_of_mem _ hx)),
      ofNat_val_self]
    rfl

theorem percent_not_mem_of_unreserved (s : QString)
    (h : ∀ c ∈ s, isUnreserved c.val = true) : qc '%' ∉ s := by
  intro hm
  have := h _ hm
  revert this
  decide

/-! ## Telling the chunks of a call from its URLs -/

/-- When a call has returned with URLs whose decoded parameters do not
concatenate to the text, no list of chunks that concatenates to the text is
the list of the decoded parameters. -/
theorem decoded_chunks_mismatch (r : Run State) (us : List QUrl) (key text : QString)
    (vals : List QString)
    (h1 : r = .returned { fresh with m_media := fresh.m_media ++ us })
    (h2 : us.map (fun u => queryItemValue u key) = vals.map some)
    (h3 : vals.flatten ≠ text) :
    ¬ ∃ (urls : List QUrl) (chunks : List QString),
      r = .returned { fresh with m_media := fresh.m_media ++ urls }
        ∧ urls.map (fun u => queryItemValue u key) = chunks.map some
        ∧ chunks.flatten = text := by
  rintro ⟨urls, chunks, g1, g2, g3⟩
  rw [h1] at g1
  injection g1 with g1
  injection g1 with g1
  have hu : us = urls := by simpa [fresh] using g1
  subst hu
  rw [h2] at g2
  have hv : vals = chunks := List.map_injective_iff.mpr (Option.some_injective _) g2
  subst hv
  exact h3 g3

theorem isHigh_of_isLow (c : QChar) (h : isLow c = true) : isHigh c = false := by
  have h1 := (isLow_iff c).mp h
  cases hh : isHigh c with
  | false => rfl
  | true =>
    have h2 := (isHigh_iff c).mp hh
    omega

/-- The splitter that cuts after the first code point keeps to the budget from 2
on and never cuts inside a surrogate pair. -/
theorem codePointTranslator_split (t : QString) (m : Int) (ht : t ≠ []) (hm : 2 ≤ m) :
    (1 ≤ codePointTranslator.getSplitIndex t m
      ∧ codePointTranslator.getSplitIndex t m ≤ min m t.length)
    ∧ splitsPair t (codePointTranslator.getSplitIndex t m).toNat = false := by
  simp only [codePointTranslator]
  by_cases h : splitsPair t 1 = true
  · rw [if_pos h]
    cases t with
    | nil => exact absurd rfl ht
    | cons a t1 =>
      cases t1 with
      | nil => simp [splitsPair] at h
      | cons b t2 =>
        simp only [splitsPair, List.get?_cons_zero, List.get?_cons_succ,
          Bool.and_eq_true] at h
        refine ⟨⟨by omega, ?_⟩, ?_⟩
        · simp only [List.length_cons]
          omega
        · show splitsPair (a :: b :: t2) 2 = false
          cases t2 with
          | nil => rfl
          | cons c t3 =>
            simp [splitsPair, isHigh_of_isLow b h.2]
  · rw [if_neg h]
    have hlen : 1 ≤ t.length := by
      cases t with
      | nil => exact absurd rfl ht
      | cons a t1 => simp
    refine ⟨⟨by omega, by omega⟩, ?_⟩
    simpa using h

theorem unitCutTranslator_split (t : QString) (m : Int) (ht : t ≠ []) (hm : 1 ≤ m) :
    1 ≤ unitCutTranslator.getSplitIndex t m
      ∧ unitCutTranslator.getSplitIndex t m ≤ min m t.length := by
  have hlen : 1 ≤ t.length := by
    cases t with
    | nil => exact absurd rfl ht
    | cons a t1 => simp
  simp only [unitCutTranslator]
  omega

theorem unreserved_of_all (s : QString) (h : s.all (fun c => isUnreserved c.val) = true) :
    ∀ c ∈ s, isUnreserved c.val = true := by
  simpa [List.all_eq_true] using h

/-! ## The claims -/

/-- C1 (as amended): on a Linux host, for every text that is well-formed UTF-16,
every Text Splitter that on non-empty text and a budget of 2 or more returns an
index in [1, min(maxLength, len(text))] that is not inside a surrogate pair, and
fuel at least the length of the text, generateUrls under Google with a non-auto
language whose code the resolver knows and which has no ampersand and no stray
percent sign in it, and under Yandex with Russian, Tatar or English and a voice
and emotion other than none, returns having appended URLs whose decoded `q` /
`text` parameters, in order, are chunks that concatenate to the text. -/
theorem generateUrls_linux_decoded_chunks_concat (T : Translator) (fuel : Nat) (s : State)
    (text : QString) (engine : Engine) (lang : Language) (voice : Voice) (emotion : Emotion)
    (hsplit : ∀ (t : QString) (m : Int), t ≠ [] → 2 ≤ m →
      1 ≤ T.getSplitIndex t m ∧ T.getSplitIndex t m ≤ min m t.length)
    (hpair : ∀ (t : QString) (m : Int), t ≠ [] → 2 ≤ m →
      splitsPair t (T.getSplitIndex t m).toNat = false)
    (hwf : wellFormed text = true)
    (hfuel : text.length ≤ fuel)
    (hvalid : (engine = .Google ∧ lang ≠ .Auto
        ∧ ∃ code, T.languageApiCode .Google lang = some code ∧ qc '&' ∉ code
          ∧ hasStrayPercent code = false)
      ∨ (engine = .Yandex ∧ (lang = .Russian ∨ lang = .Tatar ∨ lang = .English)
        ∧ voice ≠ .NoVoice ∧ emotion ≠ .NoEmotion)) :
    ∃ (urls : List QUrl) (chunks : List QString),
      generateUrls T .linux fuel s text engine lang voice emotion
          = .returned { s with m_media := s.m_media ++ urls }
        ∧ urls.map (fun u => queryItemValue u (chunkParameter engine)) = chunks.map some
        ∧ chunks.flatten = text := by
  have loop : ∀ (limit : Int) (apiUrl : QString → QUrl), 2 ≤ limit →
      ∃ chunks : List QString,
        chunkLoop T limit apiUrl fuel text s
            = .returned { s with m_media := s.m_media ++ chunks.map apiUrl }
          ∧ chunks.flatten = text ∧ ∀ c ∈ chunks, wellFormed c = true := by
    intro limit apiUrl hlimit
    refine chunkLoop_returns_inv T limit apiUrl (fun t => wellFormed t = true)
      (fun t ht => (hsplit t limit ht hlimit).1) ?_ fuel text s hfuel hwf
    intro t ht hw
    have h0 : 0 ≤ T.getSplitIndex t limit := by
      have := (hsplit t limit ht hlimit).1
      omega
    rw [left_eq_take t _ h0, mid_eq_drop t _ h0]
    exact wellFormed_take_drop t _ hw (hpair t limit ht hlimit)
  rcases hvalid with ⟨rfl, hl, code, hc, hamp, hstray⟩ | ⟨rfl, hl, hv, he⟩
  · obtain ⟨chunks, h1, h2, h3⟩ := loop googleTtsLimit (googleApiUrl .linux code) (by decide)
    refine ⟨chunks.map (googleApiUrl .linux code), chunks, ?_, ?_, h2⟩
    · rw [generateUrls_google T .linux fuel s text lang voice emotion code hl hc, h1]
    · rw [List.map_map]
      refine List.map_congr_left ?_
      intro c hcm
      rw [Function.comp_apply, chunkParameter,
        queryItemValue_google_linux code c hamp hstray, fromUtf8_toUtf8 c (h3 c hcm)]
  · obtain ⟨l, v, e, -, -, -, hl', hv', he', hg⟩ := yandex_codes T s lang voice emotion hl hv he
    obtain ⟨chunks, h1, h2, h3⟩ := loop yandexTtsLimit (yandexApiUrl .linux l v e) (by decide)
    refine ⟨chunks.map (yandexApiUrl .linux l v e), chunks, ?_, ?_, h2⟩
    · rw [hg, h1]
    · rw [List.map_map]
      refine List.map_congr_left ?_
      intro c hcm
      rw [Function.comp_apply, chunkParameter,
        queryItemValue_yandex_linux l v e c hl' hv' he', fromUtf8_toUtf8 c (h3 c hcm)]

/-- Witness of C1: the text `a😀b`, cut after each code point, under Google and
English on a fresh object. -/
theorem generateUrls_linux_decoded_chunks_concat_witness :
    ∃ (urls : List QUrl) (chunks : List QString),
      generateUrls codePointTranslator .linux 4 fresh (qs "a😀b") .Google .English .NoVoice
          .NoEmotion = .returned { fresh with m_media := fresh.m_media ++ urls }
        ∧ urls.map (fun u => queryItemValue u (chunkParameter .Google)) = chunks.map some
        ∧ chunks.flatten = qs "a😀b" :=
  generateUrls_linux_decoded_chunks_concat codePointTranslator 4 fresh (qs "a😀b") .Google
    .English .NoVoice .NoEmotion (fun t m ht hm => (codePointTranslator_split t m ht hm).1)
    (fun t m ht hm => (codePointTranslator_split t m ht hm).2) (by decide) (by decide)
    (Or.inl ⟨rfl, by decide, qs "en", rfl, by decide, by decide⟩)

/-- C1 (as stated) fails, with splitters that keep to [1, min(maxLength,
len(text))] and a language the resolver knows.  On a Windows host the text of one
blank, under Google, gives one URL whose decoded `q` parameter is `%20`.  On a
Linux host: the text `😀` (one surrogate pair) cut after its first code unit
gives two URLs whose decoded `q` parameters are both `?`; the text of one lone
high surrogate gives the decoded `q` parameter `?`; a language code `en&q=x`
makes the decoded `q` parameter `x`; and a language code `%` makes the decoded
`q` parameter of the text of one blank `%20`. -/
theorem generateUrls_decoded_chunks_concat_counterexample :
    (∀ (t : QString) (m : Int), t ≠ [] → 1 ≤ m →
      1 ≤ hardCutTranslator.getSplitIndex t m
        ∧ hardCutTranslator.getSplitIndex t m ≤ min m t.length)
    ∧ (∀ (t : QString) (m : Int), t ≠ [] → 1 ≤ m →
      1 ≤ unitCutTranslator.getSplitIndex t m
        ∧ unitCutTranslator.getSplitIndex t m ≤ min m t.length)
    ∧ hardCutTranslator.languageApiCode .Google .English = some (qs "en")
    ∧ unitCutTranslator.languageApiCode .Google .English = some (qs "en")
    ∧ ampersandTranslator.languageApiCode .Google .English = some (qs "en&q=x")
    ∧ percentTranslator.languageApiCode .Google .English = some (qs "%")
    ∧ (¬ ∃ (urls : List QUrl) (chunks : List QString),
      generateUrls hardCutTranslator .windows 1 fresh (qs " ") .Google .English .NoVoice
          .NoEmotion = .returned { fresh with m_media := fresh.m_media ++ urls }
        ∧ urls.map (fun u => queryItemValue u (chunkParameter .Google)) = chunks.map some
        ∧ chunks.flatten = qs " ")
    ∧ (wellFormed (qs "😀") = true
      ∧ ¬ ∃ (urls : List QUrl) (chunks : List QString),
        generateUrls unitCutTranslator .linux 2 fresh (qs "😀") .Google .English .NoVoice
            .NoEmotion = .returned { fresh with m_media := fresh.m_media ++ urls }
          ∧ urls.map (fun u => queryItemValue u (chunkParameter .Google)) = chunks.map some
          ∧ chunks.flatten = qs "😀")
    ∧ (¬ ∃ (urls : List QUrl) (chunks : List QString),
      generateUrls hardCutTranslator .linux 1 fresh ((qs "😀").take 1) .Google .English
          .NoVoice .NoEmotion = .returned { fresh with m_media := fresh.m_media ++ urls }
        ∧ urls.map (fun u => queryItemValue u (chunkParameter .Google)) = chunks.map some
        ∧ chunks.flatten = (qs "😀").take 1)
    ∧ (¬ ∃ (urls : List QUrl) (chunks : List QString),
      generateUrls ampersandTranslator .linux 1 fresh (qs "a") .Google .English .NoVoice
          .NoEmotion = .returned { fresh with m_media := fresh.m_media ++ urls }
        ∧ urls.map (fun u => queryItemValue u (chunkParameter .Google)) = chunks.map some
        ∧ chunks.flatten = qs "a")
    ∧ (¬ ∃ (urls : List QUrl) (chunks : List QString),
      generateUrls percentTranslator .linux 1 fresh (qs " ") .Google .English .NoVoice
          .NoEmotion = .returned { fresh with m_media := fresh.m_media ++ urls }
        ∧ urls.map (fun u => queryItemValue u (chunkParameter .Google)) = chunks.map some
        ∧ chunks.flatten = qs " ") := by
  refine ⟨hardCutTranslator_split, unitCutTranslator_split, rfl, rfl, rfl, rfl, ?_,
    ⟨by decide, ?_⟩, ?_, ?_, ?_⟩
  · exact decoded_chunks_mismatch _ [googleApiUrl .windows (qs "en") (qs " ")] _ _ [qs "%20"]
      (by decide) (by decide) (by decide)
  · exact decoded_chunks_mismatch _
      [googleApiUrl .linux (qs "en") ((qs "😀").take 1),
        googleApiUrl .linux (qs "en") ((qs "😀").drop 1)] _ _ [qs "?", qs "?"]
      (by decide) (by decide) (by decide)
  · exact decoded_chunks_mismatch _ [googleApiUrl .linux (qs "en") ((qs "😀").take 1)] _ _
      [qs "?"] (by decide) (by decide) (by decide)
  · exact decoded_chunks_mismatch _ [googleApiUrl .linux (qs "en&q=x") (qs "a")] _ _ [qs "x"]
      (by decide) (by decide) (by decide)
  · exact decoded_chunks_mismatch _ [googleApiUrl .linux (qs "%") (qs " ")] _ _ [qs "%20"]
      (by decide) (by decide) (by decide)

/-- C2 (as amended): for every text, every amount of fuel (so also while the
loop is still running) and every Text Splitter that returns an index between 0
and maxLength, each URL generateUrls has appended is the URL of a chunk of at
most 200 characters under Google and of at most 1400 characters under Yandex. -/
theorem generateUrls_chunks_within_limit (T : Translator) (os : HostOS) (fuel : Nat) (s : State)
    (text : QString) (lang : Language) (voice : Voice) (emotion : Emotion)
    (hsplit : ∀ (t : QString) (m : Int), 0 ≤ m →
      0 ≤ T.getSplitIndex t m ∧ T.getSplitIndex t m ≤ m) :
    (∃ chunks : List QString,
      (generateUrls T os fuel s text .Google lang voice emotion).state.m_media
          = s.m_media
            ++ chunks.map (googleApiUrl os ((languageApiCode T s .Google lang).1.getD []))
        ∧ ∀ c ∈ chunks, (c.length : Int) ≤ 200)
    ∧ (∃ chunks : List QString,
      (generateUrls T os fuel s text .Yandex lang voice emotion).state.m_media
          = s.m_media
            ++ chunks.map (yandexApiUrl os ((languageApiCode T s .Yandex lang).1.getD [])
              ((voiceCode voice).getD []) ((emotionCode emotion).getD []))
        ∧ ∀ c ∈ chunks, (c.length : Int) ≤ 1400) := by
  constructor
  · by_cases hl : lang = .Auto
    · subst hl
      exact ⟨[], by simp [generateUrls, languageApiCode, Run.state, setError], by simp⟩
    · cases hc : T.languageApiCode .Google lang with
      | none =>
        exact ⟨[], by simp [generateUrls, languageApiCode, Run.state, hl, hc], by simp⟩
      | some code =>
        rw [generateUrls_google T os fuel s text lang voice emotion code hl hc,
          languageApiCode_google T s lang code hl hc]
        exact chunkLoop_chunks_le T googleTtsLimit (googleApiUrl os code)
          (fun t => hsplit t _ (by decide)) fuel text s
  · by_cases hl : lang = .Russian ∨ lang = .Tatar ∨ lang = .English
    · by_cases hv : voice = .NoVoice
      · subst hv
        obtain ⟨l, h1⟩ := languageApiCode_yandex T s lang hl
        exact ⟨[], by simp [generateUrls, h1, voiceApiCode, Run.state, setError], by simp⟩
      · by_cases he : emotion = .NoEmotion
        · subst he
          obtain ⟨l, h1⟩ := languageApiCode_yandex T s lang hl
          obtain ⟨v, h2, -⟩ := voiceApiCode_yandex s voice hv
          exact ⟨[], by simp [generateUrls, h1, h2, emotionApiCode, Run.state, setError],
            by simp⟩
        · obtain ⟨l, v, e, h1, h2, h3, hg⟩ :=
            generateUrls_yandex T os fuel s text lang voice emotion hl hv he
          rw [hg, h1, h2, h3]
          exact chunkLoop_chunks_le T yandexTtsLimit (yandexApiUrl os l v e)
            (fun t => hsplit t _ (by decide)) fuel text s
    · refine ⟨[], ?_, by simp⟩
      cases lang <;> simp [generateUrls, languageApiCode, Run.state, setError] at hl ⊢

/-- Witness of C2: the hard-cut splitter, whose index lies between 0 and the
budget. -/
theorem generateUrls_chunks_within_limit_witness :
    (∃ chunks : List QString,
      (generateUrls hardCutTranslator .linux 2 fresh (qs "a b") .Google .English .Jane
          .Good).state.m_media
          = fresh.m_media ++ chunks.map
            (googleApiUrl .linux ((languageApiCode hardCutTranslator fresh .Google .English).1.getD []))
        ∧ ∀ c ∈ chunks, (c.length : Int) ≤ 200)
    ∧ (∃ chunks : List QString,
      (generateUrls hardCutTranslator .linux 2 fresh (qs "a b") .Yandex .English .Jane
          .Good).state.m_media
          = fresh.m_media ++ chunks.map
            (yandexApiUrl .linux ((languageApiCode hardCutTranslator fresh .Yandex .English).1.getD [])
              ((voiceCode .Jane).getD []) ((emotionCode .Good).getD []))
        ∧ ∀ c ∈ chunks, (c.length : Int) ≤ 1400) :=
  generateUrls_chunks_within_limit hardCutTranslator .linux 2 fresh (qs "a b") .English .Jane
    .Good (fun t m hm => by simp only [hardCutTranslator]; omega)

/-- C2 (as stated) fails: a splitter that returns `-1`, which does not exceed
maxLength, makes `left` return the entire text, so a text of 201 characters goes
into one Google URL as a chunk of 201 characters. -/
theorem generateUrls_chunks_within_limit_counterexample :
    (∀ (t : QString) (m : Int), negativeSplitTranslator.getSplitIndex t m ≤ m)
    ∧ ¬ ∃ chunks : List QString,
      (generateUrls negativeSplitTranslator .linux 1 fresh (List.replicate 201 (qc 'a')) .Google
          .English .NoVoice .NoEmotion).state.m_media
          = fresh.m_media ++ chunks.map (googleApiUrl .linux
            ((languageApiCode negativeSplitTranslator fresh .Google .English).1.getD []))
        ∧ ∀ c ∈ chunks, (c.length : Int) ≤ 200 := by
  refine ⟨fun t m => by simp only [negativeSplitTranslator]; omega, ?_⟩
  rintro ⟨chunks, h1, h2⟩
  have hl : languageApiCode negativeSplitTranslator fresh .Google .English
      = (some (qs "en"), fresh) := rfl
  have hlen : (List.replicate 201 (qc 'a')).length = 201 := List.length_replicate _ _
  have hall : ∀ x ∈ List.replicate 201 (qc 'a'), x.val < 0x80 := by
    intro x hx
    rw [List.eq_of_mem_replicate hx]
    decide
  generalize List.replicate 201 (qc 'a') = text at h1 h2 hlen hall
  have hne : isEmpty text = false := by
    cases text with
    | nil => simp at hlen
    | cons c cs => rfl
  have e : generateUrls negativeSplitTranslator .linux 1 fresh text .Google
      .English .NoVoice .NoEmotion
      = .running { fresh with m_media := fresh.m_media
        ++ [googleApiUrl .linux (qs "en") text] } := by
    rw [generateUrls_google negativeSplitTranslator .linux 1 fresh _ .English .NoVoice
      .NoEmotion (qs "en") (by decide) rfl, chunkLoop_succ, chunkLoop_zero]
    have hi : negativeSplitTranslator.getSplitIndex text googleTtsLimit = -1 := by
      simp [negativeSplitTranslator, googleTtsLimit]
    rw [hi]
    have hleft : left text (-1) = text := by simp [left]
    have hmid : mid text (-1) = text := by
      unfold mid
      rw [if_neg (by omega), if_pos (by decide)]
    rw [hleft, hmid]
    simp [hne]
  rw [e, hl] at h1
  simp only [Run.state, fresh, List.nil_append, Option.getD_some] at h1
  cases chunks with
  | nil => simp at h1
  | cons c cs =>
    simp only [List.map_cons, List.cons.injEq] at h1
    have hq := congrArg (fun u => u.query) h1.1
    simp only [googleApiUrl_linux (qs "en") _ (by decide), Option.some.injEq] at hq
    have hp : toPercentEncoding text = toPercentEncoding c := List.append_cancel_left hq
    have hu : toUtf8 text = toUtf8 c := by
      have h3 := congrArg percentDecode hp
      have e1 := percentDecode_toPercentEncoding_append text []
      have e2 := percentDecode_toPercentEncoding_append c []
      rw [List.append_nil] at e1 e2
      rw [e1, e2] at h3
      simpa [percentDecode] using h3
    have ht : toUtf8 text = text.map (fun x => x.val) := by
      have := toUtf8_ascii_append text hall []
      rw [List.append_nil] at this
      rw [this]
      simp [toUtf8]
    have hb : ∀ b ∈ toUtf8 c, b < 0x80 := by
      intro b hb
      rw [← hu, ht] at hb
      obtain ⟨x, hx, rfl⟩ := List.mem_map.mp hb
      exact hall x hx
    have hcl : c.length = 201 := by
      rw [← length_toUtf8_of_ascii c.length c (le_refl _) hb, ← hu, ht, List.length_map, hlen]
    have := h2 c (List.mem_cons_self _ _)
    rw [hcl] at this
    omega

/-- C3 (as amended): for the empty text, generateUrls on a fresh object returns
with no URL and no error under Google with a non-auto language the resolver
knows (whatever the voice and emotion), and under Yandex with Russian, Tatar or
English and a voice and an emotion other than none. -/
theorem generateUrls_empty_text (T : Translator) (os : HostOS) (fuel : Nat) (engine : Engine)
    (lang : Language) (voice : Voice) (emotion : Emotion)
    (hvalid : (engine = .Google ∧ lang ≠ .Auto ∧ (T.languageApiCode .Google lang).isSome)
      ∨ (engine = .Yandex ∧ (lang = .Russian ∨ lang = .Tatar ∨ lang = .English)
        ∧ voice ≠ .NoVoice ∧ emotion ≠ .NoEmotion)) :
    ∃ st, generateUrls T os fuel fresh [] engine lang voice emotion = .returned st
      ∧ media st = [] ∧ error st = .NoError := by
  refine ⟨fresh, ?_, rfl, rfl⟩
  rcases hvalid with ⟨rfl, hl, hc⟩ | ⟨rfl, hl, hv, he⟩
  · obtain ⟨code, hc⟩ := Option.isSome_iff_exists.mp hc
    rw [generateUrls_google T os fuel fresh [] lang voice emotion code hl hc, chunkLoop_nil]
  · obtain ⟨l, v, e, -, -, -, hg⟩ := generateUrls_yandex T os fuel fresh [] lang voice emotion
      hl hv he
    rw [hg, chunkLoop_nil]

/-- Witness of C3: Yandex with Tatar, the voice jane and the emotion evil. -/
theorem generateUrls_empty_text_witness :
    ∃ st, generateUrls hardCutTranslator .windows 0 fresh [] .Yandex .Tatar .Jane .Evil
        = .returned st
      ∧ media st = [] ∧ error st = .NoError :=
  generateUrls_empty_text hardCutTranslator .windows 0 .Yandex .Tatar .Jane .Evil
    (Or.inr ⟨rfl, Or.inr (Or.inl rfl), by decide, by decide⟩)

/-- C3 (as stated) fails: for the empty text under Yandex with Russian, the voice
none leaves the error kind UnsupportedVoice, and the voice zahar with the emotion
none leaves UnsupportedEmotion. -/
theorem generateUrls_empty_text_counterexample :
    error (generateUrls hardCutTranslator .linux 0 fresh [] .Yandex .Russian .NoVoice
        .Neutral).state = .UnsupportedVoice
      ∧ error (generateUrls hardCutTranslator .linux 0 fresh [] .Yandex .Russian .Zahar
        .NoEmotion).state = .UnsupportedEmotion
      ∧ error (generateUrls hardCutTranslator .linux 0 fresh [] .Yandex .Russian .NoVoice
        .Neutral).state ≠ .NoError := by
  decide

/-- C4: with the Bing engine generateUrls returns, whatever the text, language,
voice and emotion, having appended no URL (so the sequence of a fresh object
stays empty), with the error kind UnsupportedEngine. -/
theorem generateUrls_bing (T : Translator) (os : HostOS) (fuel : Nat) (s : State)
    (text : QString) (lang : Language) (voice : Voice) (emotion : Emotion) :
    (∃ st, generateUrls T os fuel s text .Bing lang voice emotion = .returned st
      ∧ media st = media s ∧ error st = .UnsupportedEngine)
    ∧ media (generateUrls T os fuel fresh text .Bing lang voice emotion).state = [] :=
  ⟨⟨_, rfl, rfl, rfl⟩, rfl⟩

/-- C5: with the Google engine and the auto-detect language generateUrls
returns, whatever the text, voice and emotion, having appended no URL (so the
sequence of a fresh object stays empty), with the error kind
UnsupportedLanguage. -/
theorem generateUrls_google_auto (T : Translator) (os : HostOS) (fuel : Nat) (s : State)
    (text : QString) (voice : Voice) (emotion : Emotion) :
    (∃ st, generateUrls T os fuel s text .Google .Auto voice emotion = .returned st
      ∧ media st = media s ∧ error st = .UnsupportedLanguage)
    ∧ media (generateUrls T os fuel fresh text .Google .Auto voice emotion).state = [] :=
  ⟨⟨_, rfl, rfl, rfl⟩, rfl⟩

/-- C6: with the Yandex engine, a language Yandex supports (Russian, Tatar,
English) and the voice none, generateUrls returns, whatever the text and the
emotion, having appended no URL (so the sequence of a fresh object stays empty),
with the error kind UnsupportedVoice. -/
theorem generateUrls_yandex_no_voice (T : Translator) (os : HostOS) (fuel : Nat) (s : State)
    (text : QString) (lang : Language) (emotion : Emotion)
    (hl : lang = .Russian ∨ lang = .Tatar ∨ lang = .English) :
    (∃ st, generateUrls T os fuel s text .Yandex lang .NoVoice emotion = .returned st
      ∧ media st = media s ∧ error st = .UnsupportedVoice)
    ∧ media (generateUrls T os fuel fresh text .Yandex lang .NoVoice emotion).state = [] := by
  rcases hl with rfl | rfl | rfl <;> exact ⟨⟨_, rfl, rfl, rfl⟩, rfl⟩

/-- Witness of C6: English with the emotion good, a text of three characters. -/
theorem generateUrls_yandex_no_voice_witness :
    (∃ st, generateUrls hardCutTranslator .linux 5 fresh (qs "a b") .Yandex .English .NoVoice
        .Good = .returned st
      ∧ media st = media fresh ∧ error st = .UnsupportedVoice)
    ∧ media (generateUrls hardCutTranslator .linux 5 fresh (qs "a b") .Yandex .English
        .NoVoice .Good).state = [] :=
  generateUrls_yandex_no_voice hardCutTranslator .linux 5 fresh (qs "a b") .English .Good
    (Or.inr (Or.inr rfl))

/-- C7 (the code at the failing input): voiceApiCode gives zahar its code from
the voice table, but `voice` searches the emotion table, does not find the code
and gives back the voice none. -/
theorem voice_of_zahar_code :
    (voiceApiCode fresh .Yandex .Zahar).1 = some (qs "zahar")
      ∧ (qs "zahar") ∈ m_voiceCodes
      ∧ voice (qs "zahar") = some .NoVoice
      ∧ voice (qs "zahar") ≠ some .Zahar := by
  decide

/-- C8: for every emotion other than none, emotionApiCode under Yandex returns
a code, leaving the state as it is; the code is an entry of the emotion code
table, and `emotion` applied to it gives back the emotion. -/
theorem emotion_round_trip (s : State) (e : Emotion) (he : e ≠ .NoEmotion) :
    ∃ code, emotionApiCode s .Yandex e = (some code, s) ∧ code ∈ m_emotionCodes
      ∧ emotion code = some e := by
  cases e
  · exact absurd rfl he
  · exact ⟨(qs "neutral"), rfl, by decide, by decide⟩
  · exact ⟨(qs "good"), rfl, by decide, by decide⟩
  · exact ⟨(qs "evil"), rfl, by decide, by decide⟩

/-- Witness of C8: the emotion evil. -/
theorem emotion_round_trip_witness :
    ∃ code, emotionApiCode fresh .Yandex .Evil = (some code, fresh) ∧ code ∈ m_emotionCodes
      ∧ emotion code = some .Evil :=
  emotion_round_trip fresh .Evil (by decide)

/-- C10: under Yandex languageApiCode returns ru_RU for Russian, tr_TR for
Tatar and en_GB for English, leaving the state as it is; for every other
language it returns no code and sets the error kind UnsupportedLanguage. -/
theorem languageApiCode_yandex_table (T : Translator) (s : State) (lang : Language) :
    (lang = .Russian ∧ languageApiCode T s .Yandex lang = (some (qs "ru_RU"), s))
      ∨ (lang = .Tatar ∧ languageApiCode T s .Yandex lang = (some (qs "tr_TR"), s))
      ∨ (lang = .English ∧ languageApiCode T s .Yandex lang = (some (qs "en_GB"), s))
      ∨ (lang ≠ .Russian ∧ lang ≠ .Tatar ∧ lang ≠ .English
        ∧ (languageApiCode T s .Yandex lang).1 = none
        ∧ error (languageApiCode T s .Yandex lang).2 = .UnsupportedLanguage) := by
  cases lang
  · exact Or.inr (Or.inr (Or.inr ⟨by decide, by decide, by decide, rfl, rfl⟩))
  · exact Or.inl ⟨rfl, rfl⟩
  · exact Or.inr (Or.inl ⟨rfl, rfl⟩)
  · exact Or.inr (Or.inr (Or.inl ⟨rfl, rfl⟩))
  · exact Or.inr (Or.inr (Or.inr ⟨by simp, by simp, by simp, rfl, rfl⟩))

/-- C11: voiceApiCode succeeds exactly when the engine is Yandex and the voice
is not none; it then returns the lower-case name of the voice (zahar, ermil,
jane, oksana, alyss, omazh) and leaves the state, so also the error state, as it
is; otherwise it returns no code and sets the error kind UnsupportedVoice. -/
theorem voiceApiCode_cases (s : State) (engine : Engine) (voice : Voice) :
    (engine = .Yandex ∧ voice ≠ .NoVoice
      ∧ ((voice = .Zahar ∧ voiceApiCode s engine voice = (some (qs "zahar"), s))
        ∨ (voice = .Ermil ∧ voiceApiCode s engine voice = (some (qs "ermil"), s))
        ∨ (voice = .Jane ∧ voiceApiCode s engine voice = (some (qs "jane"), s))
        ∨ (voice = .Oksana ∧ voiceApiCode s engine voice = (some (qs "oksana"), s))
        ∨ (voice = .Alyss ∧ voiceApiCode s engine voice = (some (qs "alyss"), s))
        ∨ (voice = .Omazh ∧ voiceApiCode s engine voice = (some (qs "omazh"), s))))
    ∨ ((engine ≠ .Yandex ∨ voice = .NoVoice)
      ∧ (voiceApiCode s engine voice).1 = none
      ∧ error (voiceApiCode s engine voice).2 = .UnsupportedVoice
      ∧ media (voiceApiCode s engine voice).2 = media s) := by
  cases engine <;> cases voice <;> simp [voiceApiCode, voiceCode, value, m_voiceCodes,
    Voice.toInt, setError, error, media]

/-- C12: emotionApiCode succeeds exactly when the engine is Yandex and the
emotion is not none; it then returns the lower-case name of the emotion
(neutral, good, evil) and leaves the state, so also the error state, as it is;
otherwise it returns no code and sets the error kind UnsupportedEmotion. -/
theorem emotionApiCode_cases (s : State) (engine : Engine) (emotion : Emotion) :
    (engine = .Yandex ∧ emotion ≠ .NoEmotion
      ∧ ((emotion = .Neutral ∧ emotionApiCode s engine emotion = (some (qs "neutral"), s))
        ∨ (emotion = .Good ∧ emotionApiCode s engine emotion = (some (qs "good"), s))
        ∨ (emotion = .Evil ∧ emotionApiCode s engine emotion = (some (qs "evil"), s))))
    ∨ ((engine ≠ .Yandex ∨ emotion = .NoEmotion)
      ∧ (emotionApiCode s engine emotion).1 = none
      ∧ error (emotionApiCode s engine emotion).2 = .UnsupportedEmotion
      ∧ media (emotionApiCode s engine emotion).2 = media s) := by
  cases engine <;> cases emotion <;> simp [emotionApiCode, emotionCode, value, m_emotionCodes,
    Emotion.toInt, setError, error, media]

/-- C18: under Google the voice and the emotion are ignored: from the same
state, with the same text and language, any two choices of voice and emotion
give the same outcome, so the same URL sequence and the same error state. -/
theorem generateUrls_google_ignores_voice_emotion (T : Translator) (os : HostOS) (fuel : Nat)
    (s : State) (text : QString) (lang : Language) (voice1 voice2 : Voice)
    (emotion1 emotion2 : Emotion) :
    generateUrls T os fuel s text .Google lang voice1 emotion1
        = generateUrls T os fuel s text .Google lang voice2 emotion2
      ∧ media (generateUrls T os fuel s text .Google lang voice1 emotion1).state
        = media (generateUrls T os fuel s text .Google lang voice2 emotion2).state
      ∧ error (generateUrls T os fuel s text .Google lang voice1 emotion1).state
        = error (generateUrls T os fuel s text .Google lang voice2 emotion2).state
      ∧ errorString (generateUrls T os fuel s text .Google lang voice1 emotion1).state
        = errorString (generateUrls T os fuel s text .Google lang voice2 emotion2).state :=
  ⟨rfl, rfl, rfl, rfl⟩

/-- C20: under Yandex generateUrls checks the language, then the voice, then
the emotion, and returns at the first failure: a language other than Russian,
Tatar and English gives UnsupportedLanguage whatever the voice and emotion; a
supported language with the voice none gives UnsupportedVoice whatever the
emotion; a supported language with a voice and the emotion none gives
UnsupportedEmotion; in the one remaining case the call sets no error. -/
theorem generateUrls_yandex_error_precedence (T : Translator) (os : HostOS) (fuel : Nat)
    (s : State) (text : QString) (lang : Language) (voice : Voice) (emotion : Emotion) :
    (¬ (lang = .Russian ∨ lang = .Tatar ∨ lang = .English)
      ∧ ∃ st, generateUrls T os fuel s text .Yandex lang voice emotion = .returned st
        ∧ error st = .UnsupportedLanguage)
    ∨ ((lang = .Russian ∨ lang = .Tatar ∨ lang = .English) ∧ voice = .NoVoice
      ∧ ∃ st, generateUrls T os fuel s text .Yandex lang voice emotion = .returned st
        ∧ error st = .UnsupportedVoice)
    ∨ ((lang = .Russian ∨ lang = .Tatar ∨ lang = .English) ∧ voice ≠ .NoVoice
      ∧ emotion = .NoEmotion
      ∧ ∃ st, generateUrls T os fuel s text .Yandex lang voice emotion = .returned st
        ∧ error st = .UnsupportedEmotion)
    ∨ ((lang = .Russian ∨ lang = .Tatar ∨ lang = .English) ∧ voice ≠ .NoVoice
      ∧ emotion ≠ .NoEmotion
      ∧ error (generateUrls T os fuel s text .Yandex lang voice emotion).state = error s
      ∧ errorString (generateUrls T os fuel s text .Yandex lang voice emotion).state
        = errorString s) := by
  by_cases hl : lang = .Russian ∨ lang = .Tatar ∨ lang = .English
  · by_cases hv : voice = .NoVoice
    · subst hv
      obtain ⟨l, h1⟩ := languageApiCode_yandex T s lang hl
      have hg : generateUrls T os fuel s text .Yandex lang .NoVoice emotion
          = .returned (voiceApiCode s .Yandex .NoVoice).2 := by
        simp only [generateUrls, h1, voiceApiCode]
        rfl
      exact Or.inr (Or.inl ⟨hl, rfl, _, hg, rfl⟩)
    · by_cases he : emotion = .NoEmotion
      · subst he
        obtain ⟨l, h1⟩ := languageApiCode_yandex T s lang hl
        obtain ⟨v, h2, -⟩ := voiceApiCode_yandex s voice hv
        have hg : generateUrls T os fuel s text .Yandex lang voice .NoEmotion
            = .returned (emotionApiCode s .Yandex .NoEmotion).2 := by
          simp only [generateUrls, h1, h2, emotionApiCode]
          rfl
        exact Or.inr (Or.inr (Or.inl ⟨hl, hv, rfl, _, hg, rfl⟩))
      · obtain ⟨l, v, e, -, -, -, hg⟩ :=
          generateUrls_yandex T os fuel s text lang voice emotion hl hv he
        obtain ⟨chunks, h1, -⟩ := chunkLoop_chunks_state T yandexTtsLimit (yandexApiUrl os l v e)
          fuel text s
        refine Or.inr (Or.inr (Or.inr ⟨hl, hv, he, ?_, ?_⟩))
        · rw [hg, h1]; rfl
        · rw [hg, h1]; rfl
  · refine Or.inl ⟨hl, ?_⟩
    cases lang <;> simp [generateUrls, languageApiCode, setError, error] at hl ⊢

/-- C13 (as amended): on a fresh object, for a non-empty text, a Text Splitter
that returns at least 1 on non-empty text, fuel at least the length of the text,
and under Google a language that is auto-detect or known to the resolver,
generateUrls returns and the URL sequence is non-empty if and only if the call
set no error. -/
theorem generateUrls_nonempty_iff_no_error (T : Translator) (os : HostOS) (fuel : Nat)
    (text : QString) (engine : Engine) (lang : Language) (voice : Voice) (emotion : Emotion)
    (htext : text ≠ [])
    (hsplit : ∀ (t : QString) (m : Int), t ≠ [] → 1 ≤ m → 1 ≤ T.getSplitIndex t m)
    (hfuel : text.length ≤ fuel)
    (hknown : engine = .Google → lang = .Auto ∨ (T.languageApiCode .Google lang).isSome) :
    ∃ st, generateUrls T os fuel fresh text engine lang voice emotion = .returned st
      ∧ (media st ≠ [] ↔ error st = .NoError) := by
  have loop : ∀ (limit : Int) (apiUrl : QString → QUrl), 1 ≤ limit →
      ∃ st, chunkLoop T limit apiUrl fuel text fresh = .returned st
        ∧ (media st ≠ [] ↔ error st = .NoError) := by
    intro limit apiUrl hlimit
    obtain ⟨chunks, h1, h2, -⟩ := chunkLoop_returns T limit apiUrl
      (fun t ht => hsplit t limit ht hlimit) fuel text fresh hfuel
    refine ⟨_, h1, ?_⟩
    cases chunks with
    | nil => exact absurd h2.symm htext
    | cons c cs => simp [media, error, fresh]
  by_cases hfail : engine = .Bing ∨ (engine = .Google ∧ lang = .Auto)
      ∨ (engine = .Yandex ∧ ¬ ((lang = .Russian ∨ lang = .Tatar ∨ lang = .English)
        ∧ voice ≠ .NoVoice ∧ emotion ≠ .NoEmotion))
  · obtain ⟨kind, msg, hk, hg⟩ := generateUrls_error_set T os engine lang voice emotion hfail
    refine ⟨_, hg fuel fresh text, ?_⟩
    simp [media, error, setError, fresh, hk]
  · cases engine with
    | Bing => exact absurd (Or.inl rfl) hfail
    | Google =>
      have hl : lang ≠ .Auto := fun h => hfail (Or.inr (Or.inl ⟨rfl, h⟩))
      rcases hknown rfl with h | hc
      · exact absurd h hl
      · obtain ⟨code, hc⟩ := Option.isSome_iff_exists.mp hc
        rw [generateUrls_google T os fuel fresh text lang voice emotion code hl hc]
        exact loop _ _ (by decide)
    | Yandex =>
      have h : (lang = .Russian ∨ lang = .Tatar ∨ lang = .English)
          ∧ voice ≠ .NoVoice ∧ emotion ≠ .NoEmotion := by
        by_contra h
        exact hfail (Or.inr (Or.inr ⟨rfl, h⟩))
      obtain ⟨l, v, e, -, -, -, hg⟩ :=
        generateUrls_yandex T os fuel fresh text lang voice emotion h.1 h.2.1 h.2.2
      rw [hg]
      exact loop _ _ (by decide)

/-- Witness of C13: the text `a b` under Yandex with English, jane and good. -/
theorem generateUrls_nonempty_iff_no_error_witness :
    ∃ st, generateUrls hardCutTranslator .linux 3 fresh (qs "a b") .Yandex .English .Jane
        .Good = .returned st
      ∧ (media st ≠ [] ↔ error st = .NoError) :=
  generateUrls_nonempty_iff_no_error hardCutTranslator .linux 3 (qs "a b") .Yandex .English
    .Jane .Good (by decide) (fun t m ht hm => (hardCutTranslator_split t m ht hm).1)
    (by decide) (fun h => absurd h (by decide))

/-- C13 (as stated) fails on a fresh object: the empty text under Google with
English returns with no URL and no error; and so does the text `a` under Google
with a language the resolver does not know. -/
theorem generateUrls_nonempty_iff_no_error_counterexample :
    (generateUrls hardCutTranslator .linux 1 fresh [] .Google .English .NoVoice .NoEmotion
        = .returned fresh
      ∧ ¬ (media fresh ≠ [] ↔ error fresh = .NoError))
    ∧ (generateUrls hardCutTranslator .linux 1 fresh (qs "a") .Google .Tatar .NoVoice
        .NoEmotion = .returned fresh
      ∧ ¬ (media fresh ≠ [] ↔ error fresh = .NoError)) := by
  decide

/-- C14: for every state, every argument tuple and every amount of fuel, the
URL sequence after generateUrls is the sequence before it followed by the URLs
of the call; and when the call fails (Bing, a language that does not resolve,
or under Yandex the voice none or the emotion none) it has appended nothing. -/
theorem generateUrls_appends_only (T : Translator) (os : HostOS) (fuel : Nat) (s : State)
    (text : QString) (engine : Engine) (lang : Language) (voice : Voice) (emotion : Emotion) :
    ∃ urls : List QUrl,
      media (generateUrls T os fuel s text engine lang voice emotion).state = media s ++ urls
      ∧ (urls = []
        ∨ ¬ (engine = .Bing ∨ (languageApiCode T s engine lang).1 = none
          ∨ (engine = .Yandex ∧ (voice = .NoVoice ∨ emotion = .NoEmotion)))) := by
  by_cases hfail : engine = .Bing ∨ (engine = .Google ∧ lang = .Auto)
      ∨ (engine = .Yandex ∧ ¬ ((lang = .Russian ∨ lang = .Tatar ∨ lang = .English)
        ∧ voice ≠ .NoVoice ∧ emotion ≠ .NoEmotion))
  · obtain ⟨kind, msg, -, hg⟩ := generateUrls_error_set T os engine lang voice emotion hfail
    exact ⟨[], by rw [hg fuel s text, List.append_nil]; rfl, Or.inl rfl⟩
  · obtain ⟨urls, h⟩ := generateUrls_error_kept T os fuel s text engine lang voice emotion hfail
    cases engine with
    | Bing => exact absurd (Or.inl rfl) hfail
    | Google =>
      have hl : lang ≠ .Auto := fun h => hfail (Or.inr (Or.inl ⟨rfl, h⟩))
      cases hc : T.languageApiCode .Google lang with
      | none =>
        refine ⟨[], ?_, Or.inl rfl⟩
        simp [generateUrls, languageApiCode, Run.state, hl, hc]
      | some code =>
        refine ⟨urls, by rw [h]; rfl, Or.inr ?_⟩
        rw [languageApiCode_google T s lang code hl hc]
        simp
    | Yandex =>
      have hy : (lang = .Russian ∨ lang = .Tatar ∨ lang = .English)
          ∧ voice ≠ .NoVoice ∧ emotion ≠ .NoEmotion := by
        by_contra hy
        exact hfail (Or.inr (Or.inr ⟨rfl, hy⟩))
      obtain ⟨l, hl⟩ := languageApiCode_yandex T s lang hy.1
      refine ⟨urls, by rw [h]; rfl, Or.inr ?_⟩
      rw [hl]
      simp [hy.2.1, hy.2.2]

/-- C15 (as amended): a generateUrls call that fails with an error (Bing;
Google with auto-detect; Yandex with a language other than Russian, Tatar and
English, with the voice none or with the emotion none) overwrites the error
state: the error kind and message after it are the same whatever state the
object was in before.  Every other call leaves the error kind and message as
they were before it. -/
theorem generateUrls_error_state (T : Translator) (os : HostOS) (fuel1 fuel2 : Nat)
    (s1 s2 : State) (text : QString) (engine : Engine) (lang : Language) (voice : Voice)
    (emotion : Emotion) :
    ((engine = .Bing ∨ (engine = .Google ∧ lang = .Auto)
        ∨ (engine = .Yandex ∧ ¬ ((lang = .Russian ∨ lang = .Tatar ∨ lang = .English)
          ∧ voice ≠ .NoVoice ∧ emotion ≠ .NoEmotion)))
      ∧ error (generateUrls T os fuel1 s1 text engine lang voice emotion).state
        = error (generateUrls T os fuel2 s2 text engine lang voice emotion).state
      ∧ errorString (generateUrls T os fuel1 s1 text engine lang voice emotion).state
        = errorString (generateUrls T os fuel2 s2 text engine lang voice emotion).state
      ∧ error (generateUrls T os fuel1 s1 text engine lang voice emotion).state ≠ .NoError)
    ∨ (¬ (engine = .Bing ∨ (engine = .Google ∧ lang = .Auto)
        ∨ (engine = .Yandex ∧ ¬ ((lang = .Russian ∨ lang = .Tatar ∨ lang = .English)
          ∧ voice ≠ .NoVoice ∧ emotion ≠ .NoEmotion)))
      ∧ error (generateUrls T os fuel1 s1 text engine lang voice emotion).state = error s1
      ∧ errorString (generateUrls T os fuel1 s1 text engine lang voice emotion).state
        = errorString s1
      ∧ error (generateUrls T os fuel2 s2 text engine lang voice emotion).state = error s2
      ∧ errorString (generateUrls T os fuel2 s2 text engine lang voice emotion).state
        = errorString s2) := by
  by_cases hfail : engine = .Bing ∨ (engine = .Google ∧ lang = .Auto)
      ∨ (engine = .Yandex ∧ ¬ ((lang = .Russian ∨ lang = .Tatar ∨ lang = .English)
        ∧ voice ≠ .NoVoice ∧ emotion ≠ .NoEmotion))
  · obtain ⟨kind, msg, hk, hg⟩ := generateUrls_error_set T os engine lang voice emotion hfail
    refine Or.inl ⟨hfail, ?_, ?_, ?_⟩
    · rw [hg fuel1 s1 text, hg fuel2 s2 text]; rfl
    · rw [hg fuel1 s1 text, hg fuel2 s2 text]; rfl
    · rw [hg fuel1 s1 text]; exact hk
  · obtain ⟨u1, h1⟩ := generateUrls_error_kept T os fuel1 s1 text engine lang voice emotion hfail
    obtain ⟨u2, h2⟩ := generateUrls_error_kept T os fuel2 s2 text engine lang voice emotion hfail
    refine Or.inr ⟨hfail, ?_, ?_, ?_, ?_⟩
    · rw [h1]; rfl
    · rw [h1]; rfl
    · rw [h2]; rfl
    · rw [h2]; rfl

/-- C15 (as stated) fails: the text `a` under Google with English sets no error,
so after the call a fresh object has no error while an object that held the
error UnsupportedEngine still holds it. -/
theorem generateUrls_error_state_counterexample :
    error (generateUrls hardCutTranslator .linux 1 fresh (qs "a") .Google .English .NoVoice
        .NoEmotion).state = .NoError
      ∧ error (generateUrls hardCutTranslator .linux 1
          (setError fresh .UnsupportedEngine (qs "Bing engine does not support TTS"))
          (qs "a") .Google .English .NoVoice .NoEmotion).state = .UnsupportedEngine
      ∧ error (generateUrls hardCutTranslator .linux 1 fresh (qs "a") .Google .English .NoVoice
          .NoEmotion).state
        ≠ error (generateUrls hardCutTranslator .linux 1
          (setError fresh .UnsupportedEngine (qs "Bing engine does not support TTS"))
          (qs "a") .Google .English .NoVoice .NoEmotion).state := by
  decide

/-- C16 (as amended): under Yandex with Russian, Tatar or English and a voice
and an emotion other than none, for every text and every amount of fuel, each URL
generateUrls has appended has the address https://tts.voicetech.yandex.net/tts;
on a Linux host its query is text=, the percent-encoded chunk, then lang=,
speaker=, emotion= with the codes of languageApiCode, voiceApiCode and
emotionApiCode, then format=mp3; on a Windows host the query is the same except
that every percent sign of the percent-encoded chunk is stored as %25.  The
codes are the same in every URL of the call. -/
theorem generateUrls_yandex_url_format (T : Translator) (fuel : Nat) (s : State)
    (text : QString) (lang : Language) (voice : Voice) (emotion : Emotion)
    (hl : lang = .Russian ∨ lang = .Tatar ∨ lang = .English) (hv : voice ≠ .NoVoice)
    (he : emotion ≠ .NoEmotion) :
    ∃ (l v e : QString) (chunks : List QString),
      languageApiCode T s .Yandex lang = (some l, s)
      ∧ voiceApiCode s .Yandex voice = (some v, s)
      ∧ emotionApiCode s .Yandex emotion = (some e, s)
      ∧ media (generateUrls T .linux fuel s text .Yandex lang voice emotion).state
        = media s ++ chunks.map (fun c =>
          ({ address := (qs "https://tts.voicetech.yandex.net/tts"),
             query := some ((qs "text=") ++ toPercentEncoding c ++ (qs "&lang=") ++ l
               ++ (qs "&speaker=") ++ v ++ (qs "&emotion=") ++ e
               ++ (qs "&format=mp3")) } : QUrl))
      ∧ media (generateUrls T .windows fuel s text .Yandex lang voice emotion).state
        = media s ++ chunks.map (fun c =>
          ({ address := (qs "https://tts.voicetech.yandex.net/tts"),
             query := some ((qs "text=") ++ encodeDecoded (toPercentEncoding c)
               ++ (qs "&lang=") ++ l ++ (qs "&speaker=") ++ v ++ (qs "&emotion=") ++ e
               ++ (qs "&format=mp3")) } : QUrl)) := by
  obtain ⟨l, v, e, h1, h2, h3, hl', hv', he', hg⟩ := yandex_codes T s lang voice emotion hl hv he
  obtain ⟨chunks, hc⟩ := chunkLoop_chunks_uniform T yandexTtsLimit fuel text
  refine ⟨l, v, e, chunks, h1, h2, h3, ?_, ?_⟩
  · rw [hg, hc]
    have hw : yandexApiUrl .linux l v e = fun c =>
        ({ address := (qs "https://tts.voicetech.yandex.net/tts"),
           query := some ((qs "text=") ++ toPercentEncoding c ++ (qs "&lang=") ++ l
             ++ (qs "&speaker=") ++ v ++ (qs "&emotion=") ++ e
             ++ (qs "&format=mp3")) } : QUrl) := by
      funext c
      exact yandexApiUrl_linux l v e c hl' hv' he'
    rw [hw]
    rfl
  · rw [hg, hc]
    have hw : yandexApiUrl .windows l v e = fun c =>
        ({ address := (qs "https://tts.voicetech.yandex.net/tts"),
           query := some ((qs "text=") ++ encodeDecoded (toPercentEncoding c)
             ++ (qs "&lang=") ++ l ++ (qs "&speaker=") ++ v ++ (qs "&emotion=") ++ e
             ++ (qs "&format=mp3")) } : QUrl) := by
      funext c
      exact yandexApiUrl_windows l v e c hl' hv' he'
    rw [hw]
    rfl

/-- Witness of C16: English, jane, good, the text `a b`. -/
theorem generateUrls_yandex_url_format_witness :
    ∃ (l v e : QString) (chunks : List QString),
      languageApiCode hardCutTranslator fresh .Yandex .English = (some l, fresh)
      ∧ voiceApiCode fresh .Yandex .Jane = (some v, fresh)
      ∧ emotionApiCode fresh .Yandex .Good = (some e, fresh)
      ∧ media (generateUrls hardCutTranslator .linux 3 fresh (qs "a b") .Yandex .English
          .Jane .Good).state
        = media fresh ++ chunks.map (fun c =>
          ({ address := (qs "https://tts.voicetech.yandex.net/tts"),
             query := some ((qs "text=") ++ toPercentEncoding c ++ (qs "&lang=") ++ l
               ++ (qs "&speaker=") ++ v ++ (qs "&emotion=") ++ e
               ++ (qs "&format=mp3")) } : QUrl))
      ∧ media (generateUrls hardCutTranslator .windows 3 fresh (qs "a b") .Yandex .English
          .Jane .Good).state
        = media fresh ++ chunks.map (fun c =>
          ({ address := (qs "https://tts.voicetech.yandex.net/tts"),
             query := some ((qs "text=") ++ encodeDecoded (toPercentEncoding c)
               ++ (qs "&lang=") ++ l ++ (qs "&speaker=") ++ v ++ (qs "&emotion=") ++ e
               ++ (qs "&format=mp3")) } : QUrl)) :=
  generateUrls_yandex_url_format hardCutTranslator 3 fresh (qs "a b") .English .Jane .Good
    (Or.inr (Or.inr rfl)) (by decide) (by decide)

/-- C16 (as stated) fails: under Yandex with English, jane and good, the text of
one blank gives on a Windows host a URL whose query starts text=%2520, not
text=%20; and on a host that is neither Linux nor Windows a URL with no query. -/
theorem generateUrls_yandex_url_format_counterexample :
    media (generateUrls hardCutTranslator .windows 1 fresh (qs " ") .Yandex .English .Jane
        .Good).state
      = [{ address := (qs "https://tts.voicetech.yandex.net/tts"),
           query := some
             (qs "text=%2520&lang=en_GB&speaker=jane&emotion=good&format=mp3") }]
    ∧ toPercentEncoding (qs " ") = (qs "%20")
    ∧ media (generateUrls hardCutTranslator .windows 1 fresh (qs " ") .Yandex .English .Jane
        .Good).state
      ≠ [{ address := (qs "https://tts.voicetech.yandex.net/tts"),
           query := some
             ((qs "text=") ++ toPercentEncoding (qs " ")
               ++ (qs "&lang=en_GB&speaker=jane&emotion=good&format=mp3")) }]
    ∧ media (generateUrls hardCutTranslator .other 1 fresh (qs " ") .Yandex .English .Jane
        .Good).state
      = [{ address := (qs "https://tts.voicetech.yandex.net/tts"), query := none }] := by
  have e : media (generateUrls hardCutTranslator .windows 1 fresh (qs " ") .Yandex .English
      .Jane .Good).state
      = [yandexApiUrl .windows (qs "en_GB") (qs "jane") (qs "good") (qs " ")] := rfl
  have k1 : ∀ c ∈ qs "en_GB", keptAsIs c = true := kept_of_all _ (by decide)
  have k2 : ∀ c ∈ qs "jane", keptAsIs c = true := kept_of_all _ (by decide)
  have k3 : ∀ c ∈ qs "good", keptAsIs c = true := kept_of_all _ (by decide)
  have p : toPercentEncoding (qs " ") = qs "%20" := by decide
  rw [e, yandexApiUrl_windows _ _ _ _ k1 k2 k3, p]
  refine ⟨rfl, rfl, ?_, rfl⟩
  intro h
  injection h with h
  injection h with _ h
  injection h with h
  have h2 := congrArg List.length h
  revert h2
  decide

/-- C17 (as amended): for every chunk made of unreserved characters only
(letters, digits, `-`, `.`, `_`, `~`) and every set of codes without a percent
sign, the Linux branch and the Windows branch build the same URL, under Google
and under Yandex.  And for such codes the Linux branch percent-encodes every
text exactly once: the query it sets holds the output of toPercentEncoding as
it is, after `q=` under Google and after `text=` under Yandex. -/
theorem platform_branches (langString voiceString emotionString chunk : QString)
    (hl : qc '%' ∉ langString) (hv : qc '%' ∉ voiceString) (he : qc '%' ∉ emotionString)
    (hchunk : ∀ c ∈ chunk, isUnreserved c.val = true) :
    googleApiUrl .windows langString chunk = googleApiUrl .linux langString chunk
    ∧ yandexApiUrl .windows langString voiceString emotionString chunk
        = yandexApiUrl .linux langString voiceString emotionString chunk
    ∧ (∀ text : QString, ∃ code : QString,
      (googleApiUrl .linux langString text).query
        = some (qs "ie=UTF-8&client=gtx&tl=" ++ code ++ qs "&q=" ++ toPercentEncoding text))
    ∧ (∀ text : QString, ∃ rest : QString,
      (yandexApiUrl .linux langString voiceString emotionString text).query
        = some (qs "text=" ++ toPercentEncoding text ++ qc '&' :: rest)) := by
  have hp : qc '%' ∉ toPercentEncoding chunk := by
    rw [toPercentEncoding_of_unreserved chunk hchunk]
    exact percent_not_mem_of_unreserved chunk hchunk
  refine ⟨?_, ?_, ?_, ?_⟩
  · have hq : qc '%' ∉ qs "ie=UTF-8&client=gtx&tl=" ++ langString ++ qs "&q="
        ++ toPercentEncoding chunk := by
      simp only [List.mem_append, not_or]
      exact ⟨⟨⟨by decide, hl⟩, by decide⟩, hp⟩
    simp only [googleApiUrl, QUrl.setQuery, encodeDecoded_of_not_mem _ hq]
  · have hq : qc '%' ∉ qs "text=" ++ toPercentEncoding chunk ++ qs "&lang=" ++ langString
        ++ qs "&speaker=" ++ voiceString ++ qs "&emotion=" ++ emotionString
        ++ qs "&format=mp3" := by
      simp only [List.mem_append, not_or]
      exact ⟨⟨⟨⟨⟨⟨⟨⟨by decide, hp⟩, by decide⟩, hl⟩, by decide⟩, hv⟩, by decide⟩, he⟩,
        by decide⟩
    simp only [yandexApiUrl, QUrl.setQuery, encodeDecoded_of_not_mem _ hq]
  · intro text
    exact ⟨recodeChars false langString,
      by rw [googleApiUrl_linux langString text (hasStrayPercent_of_not_mem _ hl)]⟩
  · intro text
    have k1 : ∀ c ∈ qs "text=", keptAsIs c = true := kept_of_all _ (by decide)
    have e1 : qs "&lang=" = qc '&' :: qs "lang=" := by decide
    have hr : qc '%' ∉ qs "lang=" ++ langString ++ qs "&speaker=" ++ voiceString
        ++ qs "&emotion=" ++ emotionString ++ qs "&format=mp3" := by
      simp only [List.mem_append, not_or]
      exact ⟨⟨⟨⟨⟨⟨by decide, hl⟩, by decide⟩, hv⟩, by decide⟩, he⟩, by decide⟩
    have e : qs "text=" ++ toPercentEncoding text ++ qs "&lang=" ++ langString
        ++ qs "&speaker=" ++ voiceString ++ qs "&emotion=" ++ emotionString
        ++ qs "&format=mp3"
        = (qs "text=" ++ toPercentEncoding text) ++ qc '&' :: (qs "lang=" ++ langString
          ++ qs "&speaker=" ++ voiceString ++ qs "&emotion=" ++ emotionString
          ++ qs "&format=mp3") := by
      rw [e1]
      simp only [List.append_assoc, List.cons_append]
    have hs : hasStrayPercent ((qs "text=" ++ toPercentEncoding text) ++ qc '&' ::
        (qs "lang=" ++ langString ++ qs "&speaker=" ++ voiceString ++ qs "&emotion="
          ++ emotionString ++ qs "&format=mp3")) = false := by
      rw [hasStrayPercent_amp, hasStrayPercent_kept_append _ k1,
        hasStrayPercent_toPercentEncoding, hasStrayPercent_of_not_mem _ hr]
      rfl
    refine ⟨recodeChars false (qs "lang=" ++ langString ++ qs "&speaker=" ++ voiceString
      ++ qs "&emotion=" ++ emotionString ++ qs "&format=mp3"), ?_⟩
    simp only [yandexApiUrl, QUrl.setQuery, recodeQuery]
    rw [e, hs, recodeChars_amp, recodeChars_kept_append _ _ k1, recodeChars_toPercentEncoding]

/-- Witness of C17: the chunk `a-b` with the codes `en_GB`, `jane` and `good`. -/
theorem platform_branches_witness :
    googleApiUrl .windows (qs "en_GB") (qs "a-b") = googleApiUrl .linux (qs "en_GB") (qs "a-b")
    ∧ yandexApiUrl .windows (qs "en_GB") (qs "jane") (qs "good") (qs "a-b")
        = yandexApiUrl .linux (qs "en_GB") (qs "jane") (qs "good") (qs "a-b")
    ∧ (∀ text : QString, ∃ code : QString,
      (googleApiUrl .linux (qs "en_GB") text).query
        = some (qs "ie=UTF-8&client=gtx&tl=" ++ code ++ qs "&q=" ++ toPercentEncoding text))
    ∧ (∀ text : QString, ∃ rest : QString,
      (yandexApiUrl .linux (qs "en_GB") (qs "jane") (qs "good") text).query
        = some (qs "text=" ++ toPercentEncoding text ++ qc '&' :: rest)) :=
  platform_branches (qs "en_GB") (qs "jane") (qs "good") (qs "a-b") (by decide) (by decide)
    (by decide) (unreserved_of_all _ (by decide))

/-- C17 (as stated) fails.  For the chunk of one blank the Linux branch builds a
URL with `q=%20` and the Windows branch one with `q=%2520`, under Google with
the code `en`; and likewise `text=%20` and `text=%2520` under Yandex.  For the
chunk `a` and the code `%20` the Linux branch keeps `tl=%20` and the Windows
branch stores `tl=%2520`.  And with the code `%`, a stray percent sign, the Linux
branch too encodes the chunk of one blank twice, as `q=%2520`. -/
theorem platform_branches_counterexample :
    googleApiUrl .linux (qs "en") (qs " ") ≠ googleApiUrl .windows (qs "en") (qs " ")
    ∧ (googleApiUrl .linux (qs "en") (qs " ")).query
      = some (qs "ie=UTF-8&client=gtx&tl=en&q=%20")
    ∧ (googleApiUrl .windows (qs "en") (qs " ")).query
      = some (qs "ie=UTF-8&client=gtx&tl=en&q=%2520")
    ∧ yandexApiUrl .linux (qs "en_GB") (qs "jane") (qs "good") (qs " ")
      ≠ yandexApiUrl .windows (qs "en_GB") (qs "jane") (qs "good") (qs " ")
    ∧ googleApiUrl .linux (qs "%20") (qs "a") ≠ googleApiUrl .windows (qs "%20") (qs "a")
    ∧ (googleApiUrl .linux (qs "%20") (qs "a")).query
      = some (qs "ie=UTF-8&client=gtx&tl=%20&q=a")
    ∧ (googleApiUrl .windows (qs "%20") (qs "a")).query
      = some (qs "ie=UTF-8&client=gtx&tl=%2520&q=a")
    ∧ toPercentEncoding (qs " ") = qs "%20"
    ∧ (googleApiUrl .linux (qs "%") (qs " ")).query
      = some (qs "ie=UTF-8&client=gtx&tl=%25&q=%2520") := by
  have q1 : (googleApiUrl .linux (qs "en") (qs " ")).query
      = some (qs "ie=UTF-8&client=gtx&tl=en&q=%20") := by decide
  have q2 : (googleApiUrl .windows (qs "en") (qs " ")).query
      = some (qs "ie=UTF-8&client=gtx&tl=en&q=%2520") := by decide
  have q3 : (googleApiUrl .linux (qs "%20") (qs "a")).query
      = some (qs "ie=UTF-8&client=gtx&tl=%20&q=a") := by decide
  have q4 : (googleApiUrl .windows (qs "%20") (qs "a")).query
      = some (qs "ie=UTF-8&client=gtx&tl=%2520&q=a") := by decide
  refine ⟨?_, q1, q2, ?_, ?_, q3, q4, by decide, by decide⟩
  · intro h
    rw [h, q2] at q1
    revert q1
    decide
  · have k1 : ∀ c ∈ qs "en_GB", keptAsIs c = true := kept_of_all _ (by decide)
    have k2 : ∀ c ∈ qs "jane", keptAsIs c = true := kept_of_all _ (by decide)
    have k3 : ∀ c ∈ qs "good", keptAsIs c = true := kept_of_all _ (by decide)
    have p : toPercentEncoding (qs " ") = qs "%20" := by decide
    rw [yandexApiUrl_linux _ _ _ _ k1 k2 k3, yandexApiUrl_windows _ _ _ _ k1 k2 k3, p]
    intro h
    injection h with _ h
    injection h with h
    have h2 := congrArg List.length h
    revert h2
    decide
  · intro h
    rw [h, q4] at q3
    revert q3
    decide

end QOnlineTts
